import Mathlib

/-!
# Verification of the RailNav routing graph engine

A shallow embedding of the routing core in `backend/app.py`:

* `_build_graph`        — pedestrian graph builder (dict of adjacency lists
                          plus a `frozenset`-keyed edge-category map),
* `_build_hybrid_graph` — variant that merges pedestrian and road ways with
                          cost multipliers,
* `_nearest_node`       — nearest graph-node resolution within a radius,
* `_shortest_path`      — Dijkstra with a `heapq` frontier and a predecessor
                          map, reconstructing the route backwards,
* the way classification performed inline in `_fetch_pedestrian_ways`,
* `_bbox_from_point_radius` — bounding-box expansion.

Modelling conventions:

* Node identifiers are `ℤ`; coordinates are pairs of `ℚ`.
* Python `float` arithmetic is modelled as exact `ℚ` arithmetic.  The
  transcendental haversine function `_haversine_m` (floating-point `sin`,
  `cos`, `atan2`) has no exact executable counterpart, so every definition
  that calls it is parametrised by an arbitrary distance function
  `hv : ℚ → ℚ → ℚ → ℚ → ℚ` standing for `_haversine_m`; the theorems hold
  for every such function, in particular for the haversine.  Only
  `_bbox_from_point_radius`, whose claim is precisely about the cosine in
  its divisor, is embedded over `ℝ` with the real cosine.
* Python dicts are association lists keyed by `ℤ` (or by the canonicalised
  ordered pair standing for `frozenset({u, v})`); insertion order is kept,
  matching dict iteration order.
* `KeyError` (raised by `nodes[u]` in `_build_graph` when `u` is absent) is
  modelled by `Except Unit`.
* `heapq` is modelled by a list together with minimum extraction under the
  lexicographic order on `(ℚ, ℤ)` pairs, which is exactly the pop order of a
  binary heap of Python tuples.  The unbounded `while` loops of
  `_shortest_path` take explicit fuel; the fuel supplied is proved
  sufficient, so the fuelled function agrees with the Python loop.
-/

namespace RailNav

/-- A latitude/longitude pair (Python `(lat, lng)` tuple). -/
abbrev Coord : Type := ℚ × ℚ

/-- Association-list lookup, first match: the semantics of `d[k]` /
`d.get(k)` for a Python dict represented as its insertion-ordered item
list (keys are unique in every list this development builds). -/
def alookup {κ : Type} {α : Type} [DecidableEq κ] : List (κ × α) → κ → Option α
  | [], _ => none
  | (k, a) :: rest, k' => if k' = k then some a else alookup rest k'

/-- The node table `osm_nodes : Dict[int, Tuple[float, float]]`. -/
abbrev NodeTable : Type := List (ℤ × Coord)

/-- One way record as produced by `_fetch_pedestrian_ways` /
`_fetch_highways`: a node-id list plus the optional `category` and
`highway` fields read by `way.get('category', way.get('highway', 'path'))`. -/
structure Way where
  nodes : List ℤ
  category : Option String
  highway : Option String
deriving DecidableEq

/-- `way.get('category', way.get('highway', 'path'))` (lines 570 and 627). -/
def wayCategory (w : Way) : String :=
  w.category.getD (w.highway.getD "path")

/-- One adjacency list: `List[Tuple[int, float]]` of (neighbor, weight). -/
abbrev Adj : Type := List (ℤ × ℚ)

/-- The routing graph `defaultdict(list)`: insertion-ordered association
list from node id to adjacency list. -/
abbrev Graph : Type := List (ℤ × Adj)

/-- `graph.get(u, [])` — the adjacency list of `u`, `[]` when absent. -/
def adjOf (g : Graph) (u : ℤ) : Adj := (alookup g u).getD []

/-- `u in graph` — key membership in the defaultdict. -/
def graphHasKey (g : Graph) (u : ℤ) : Bool := (alookup g u).isSome

/-- The edge-category map `Dict[frozenset, str]`. -/
abbrev EMap : Type := List ((ℤ × ℤ) × String)

/-- Canonicalised unordered pair: the model of `frozenset((u, v))`. -/
def ekey (u v : ℤ) : ℤ × ℤ := if u ≤ v then (u, v) else (v, u)

/-- `graph[u].append((v, w))` on the defaultdict: append to the entry of
`u`, creating it (at the end, as dicts append new keys) when missing. -/
def appendAdj : Graph → ℤ → (ℤ × ℚ) → Graph
  | [], u, e => [(u, [e])]
  | (k, l) :: rest, u, e =>
      if k = u then (k, l ++ [e]) :: rest else (k, l) :: appendAdj rest u e

/-- The paired inserts `graph[u].append((v, w)); graph[v].append((u, w))`. -/
def addEdge (g : Graph) (u v : ℤ) (w : ℚ) : Graph :=
  appendAdj (appendAdj g u (v, w)) v (u, w)

/-- `edge_types[k] = c`: overwrite in place or append a new key. -/
def emapSet : EMap → ℤ × ℤ → String → EMap
  | [], k, c => [(k, c)]
  | (k', c') :: rest, k, c =>
      if k = k' then (k', c) :: rest else (k', c') :: emapSet rest k c

/-- The `type_rank` dict of `_build_graph` (lines 616–623); `.get(c, -1)`
gives `-1` for any category outside the table. -/
def type_rank (c : String) : Int :=
  if c = "steps" then 5
  else if c = "sidewalk" then 4
  else if c = "pedestrian_street" then 3
  else if c = "foot_path" then 2
  else if c = "informal_path" then 1
  else if c = "path" then 0
  else -1

/-- The consecutive node pairs of a way: `for i in range(1, len(node_ids))`
yields `(node_ids[i-1], node_ids[i])`. -/
def pairsOf (l : List ℤ) : List (ℤ × ℤ) := l.zip l.tail

/-- The per-pair body of the `_build_graph` loop (lines 628–642), over the
consecutive pairs of one way of category `cat`.  `nodes[u]` / `nodes[v]`
raise `KeyError` (modelled `Except.error`) when the id is absent. -/
def buildPairs (hv : ℚ → ℚ → ℚ → ℚ → ℚ) (N : NodeTable) (cat : String) :
    Graph × EMap → List (ℤ × ℤ) → Except Unit (Graph × EMap)
  | s, [] => .ok s
  | (g, m), (u, v) :: rest =>
    match alookup N u, alookup N v with
    | some cu, some cv =>
      let w := hv cu.1 cu.2 cv.1 cv.2
      let g' := addEdge g u v w
      let k := ekey u v
      let m' :=
        match alookup m k with
        | some prev => if type_rank cat > type_rank prev then emapSet m k cat else m
        | none => emapSet m k cat
      buildPairs hv N cat (g', m') rest
    | _, _ => .error ()

/-- The way loop of `_build_graph` (line 625), threading the accumulated
graph and category map. -/
def buildWays (hv : ℚ → ℚ → ℚ → ℚ → ℚ) (N : NodeTable) :
    Graph × EMap → List Way → Except Unit (Graph × EMap)
  | s, [] => .ok s
  | s, w :: rest =>
    match buildPairs hv N (wayCategory w) s (pairsOf w.nodes) with
    | .ok s' => buildWays hv N s' rest
    | .error e => .error e

/-- `_build_graph(nodes, ways)` (lines 609–643), parametrised by the
distance function standing for `_haversine_m`. -/
def _build_graph (hv : ℚ → ℚ → ℚ → ℚ → ℚ) (N : NodeTable) (ways : List Way) :
    Except Unit (Graph × EMap) :=
  buildWays hv N ([], []) ways

/-- Pedestrian phase of `_build_hybrid_graph` (lines 568–581): same edge
insertion, weight scaled by `pedestrian_weight`, category written
unconditionally (`edge_types[ekey] = category`), and pairs with a missing
endpoint skipped (`continue`) instead of faulting. -/
def hybridPedPairs (hv : ℚ → ℚ → ℚ → ℚ → ℚ) (N : NodeTable) (pw : ℚ) (cat : String) :
    Graph × EMap → List (ℤ × ℤ) → Graph × EMap
  | s, [] => s
  | (g, m), (u, v) :: rest =>
    match alookup N u, alookup N v with
    | some cu, some cv =>
      let w := hv cu.1 cu.2 cv.1 cv.2 * pw
      hybridPedPairs hv N pw cat (addEdge g u v w, emapSet m (ekey u v) cat) rest
    | _, _ => hybridPedPairs hv N pw cat (g, m) rest

/-- Road phase of `_build_hybrid_graph` (lines 584–598): weight scaled by
`highway_weight`, category `'highway'` written only when the pair has no
entry yet. -/
def hybridRoadPairs (hv : ℚ → ℚ → ℚ → ℚ → ℚ) (N : NodeTable) (rw : ℚ) :
    Graph × EMap → List (ℤ × ℤ) → Graph × EMap
  | s, [] => s
  | (g, m), (u, v) :: rest =>
    match alookup N u, alookup N v with
    | some cu, some cv =>
      let w := hv cu.1 cu.2 cv.1 cv.2 * rw
      let g' := addEdge g u v w
      let k := ekey u v
      let m' := if (alookup m k).isSome then m else emapSet m k "highway"
      hybridRoadPairs hv N rw (g', m') rest
    | _, _ => hybridRoadPairs hv N rw (g, m) rest

/-- `_build_hybrid_graph(nodes, pedestrian_ways, highway_ways,
pedestrian_weight, highway_weight)` (lines 553–600). -/
def _build_hybrid_graph (hv : ℚ → ℚ → ℚ → ℚ → ℚ) (N : NodeTable)
    (pedWays roadWays : List Way) (pw rw : ℚ) : Graph × EMap :=
  let s1 := pedWays.foldl
    (fun s w => hybridPedPairs hv N pw (wayCategory w) s (pairsOf w.nodes)) ([], [])
  roadWays.foldl (fun s w => hybridRoadPairs hv N rw s (pairsOf w.nodes)) s1

/-- One iteration of the `_nearest_node` scan (lines 661–667): skip ids
absent from the graph (`if nid not in graph: continue`), and keep `(nid, d)`
when `d < best_d and d <= max_distance_m` (with `best_d` starting at
`inf`, modelled by `none`). -/
def nnStep (hv : ℚ → ℚ → ℚ → ℚ → ℚ) (point : Coord) (g : Graph) (maxd : ℚ)
    (best : Option (ℤ × ℚ)) (p : ℤ × Coord) : Option (ℤ × ℚ) :=
  if graphHasKey g p.1 then
    let d := hv point.1 point.2 p.2.1 p.2.2
    match best with
    | some (_, bd) => if d < bd ∧ d ≤ maxd then some (p.1, d) else best
    | none => if d ≤ maxd then some (p.1, d) else best
  else best

/-- `_nearest_node(point, nodes, graph, max_distance_m)` (lines 645–668):
scan the node table in insertion order and return the id of the best
entry, if any. -/
def _nearest_node (hv : ℚ → ℚ → ℚ → ℚ → ℚ) (point : Coord) (N : NodeTable)
    (g : Graph) (maxd : ℚ) : Option ℤ :=
  (N.foldl (nnStep hv point g maxd) none).map Prod.fst

/-- The way classification inline in `_fetch_pedestrian_ways`
(lines 460–492): `None` means `include_way = False` (the way is excluded
from the pedestrian navigation graph).  The `crossing` tag is read by the
Python code (line 451) but never used in this classification; the
parameter is kept for fidelity. -/
def classifyWay (hw footway_subtype crossing informal trail_vis : String) :
    Option String :=
  if hw = "steps" then some "steps"
  else if hw = "pedestrian" then some "pedestrian_street"
  else if hw = "footway" then
    if footway_subtype = "sidewalk" then some "sidewalk"
    else if footway_subtype = "crossing" then none
    else some "foot_path"
  else if hw = "path" then
    if informal = "yes" ∨ trail_vis ≠ "" then some "informal_path"
    else some "path"
  else none

end RailNav

namespace RailNav

/-- `_bbox_from_point_radius(lat, lng, radius_m)` (lines 69–73) in exact
real arithmetic: `math.radians(lat) = lat·π/180` and the real cosine.
There is no clamping of `lat` anywhere in the formula. -/
noncomputable def _bbox_from_point_radius (lat lng radius_m : ℝ) : ℝ × ℝ × ℝ × ℝ :=
  let dlat := radius_m / 111320
  let dlng := radius_m / (111320 * Real.cos (lat * Real.pi / 180))
  (lat - dlat, lng - dlng, lat + dlat, lng + dlng)

/-- The adjacency list of `u` in the graph produced by `_build_graph`
(`[]` when the build faults). -/
def builtAdj (hv : ℚ → ℚ → ℚ → ℚ → ℚ) (N : NodeTable) (ways : List Way)
    (u : ℤ) : Adj :=
  match _build_graph hv N ways with
  | .ok (g, _) => adjOf g u
  | .error _ => []

/-- The edge-category map produced by `_build_graph`, read at one key
(`none` when the build faults). -/
def builtCategory (hv : ℚ → ℚ → ℚ → ℚ → ℚ) (N : NodeTable) (ways : List Way)
    (k : ℤ × ℤ) : Option String :=
  match _build_graph hv N ways with
  | .ok (_, m) => alookup m k
  | .error _ => none

/-- A concrete, fully computable stand-in for `_haversine_m` used by the
witness instantiations: the L¹ distance on coordinates (non-negative and
zero on equal points, like the haversine). -/
def hvSample : ℚ → ℚ → ℚ → ℚ → ℚ := fun a b c d =>
  (if a ≤ c then c - a else a - c) + (if b ≤ d then d - b else b - d)

/-- The conflict resolution of `_build_graph` on one category-map cell:
keep the stored category unless the incoming one has strictly higher
`type_rank`. -/
def combine (o : Option String) (c : String) : String :=
  match o with
  | some prev => if type_rank c > type_rank prev then c else prev
  | none => c

/-- One category-map update of `_build_graph` (lines 635–642), as a
function of the insert `(frozenset key, category)`. -/
def catStep (m : EMap) (ins : (ℤ × ℤ) × String) : EMap :=
  match alookup m ins.1 with
  | some prev =>
      if type_rank ins.2 > type_rank prev then emapSet m ins.1 ins.2 else m
  | none => emapSet m ins.1 ins.2

/-- The sequence of `(frozenset key, category)` inserts performed by
`_build_graph` over a list of ways, in processing order. -/
def allInserts (ways : List Way) : List ((ℤ × ℤ) × String) :=
  ways.flatMap fun w => (pairsOf w.nodes).map fun p => (ekey p.1 p.2, wayCategory w)

/-- The categories produced by the way classifier, i.e. the domain of the
`type_rank` table. -/
def knownCats : List String :=
  ["path", "informal_path", "foot_path", "pedestrian_street", "sidewalk", "steps"]

/-- Extensional equality of category maps (equality of the Python dicts). -/
def emapEquiv (m1 m2 : EMap) : Prop := ∀ k, alookup m1 k = alookup m2 k

/-! ### Dijkstra (`_shortest_path`, lines 670–705) -/

/-- The Dijkstra working state (line 672–675): the tentative-distance dict
`dist`, the predecessor dict `prev` (`some none` = present with value
`None`), the `heapq` list and the `visited` set. -/
structure DState where
  dist : ℤ → Option ℚ
  prev : ℤ → Option (Option ℤ)
  heap : List (ℚ × ℤ)
  visited : Finset ℤ

/-- Lexicographic order on heap entries — Python's tuple comparison, which
is the pop order of a `heapq` of `(float, int)` tuples. -/
def heapLe (a b : ℚ × ℤ) : Prop := a.1 < b.1 ∨ (a.1 = b.1 ∧ a.2 ≤ b.2)

instance (a b : ℚ × ℤ) : Decidable (heapLe a b) := by
  unfold heapLe
  infer_instance

/-- The minimum entry of the heap list (what `heapq.heappop` returns). -/
def minEntry : List (ℚ × ℤ) → Option (ℚ × ℤ)
  | [] => none
  | x :: xs =>
    some (match minEntry xs with
      | none => x
      | some m => if heapLe x m then x else m)

/-- `heapq.heappop`: the minimum entry and the remaining heap. -/
def popMin (h : List (ℚ × ℤ)) : Option ((ℚ × ℤ) × List (ℚ × ℤ)) :=
  match minEntry h with
  | none => none
  | some m => some (m, h.erase m)

/-- `nd < dist.get(v, float('inf'))` (line 686). -/
def improves (s : DState) (nd : ℚ) (v : ℤ) : Bool :=
  match s.dist v with
  | some dv => decide (nd < dv)
  | none => true

/-- The state after `dist[v] = nd; prev[v] = u; heappush(heap, (nd, v))`
(lines 687–689). -/
def relaxUpd (d : ℚ) (u : ℤ) (s : DState) (e : ℤ × ℚ) : DState :=
  { dist := fun n => if n = e.1 then some (d + e.2) else s.dist n
    prev := fun n => if n = e.1 then some (some u) else s.prev n
    heap := s.heap ++ [(d + e.2, e.1)]
    visited := s.visited }

/-- One relaxation `nd = d + w; if nd < dist.get(v, inf): ...`
(lines 685–689). -/
def relaxOne (d : ℚ) (u : ℤ) (s : DState) (e : ℤ × ℚ) : DState :=
  if improves s (d + e.2) e.1 then relaxUpd d u s e else s

/-- `for v, w in graph.get(u, [])` (line 684). -/
def relaxAll (d : ℚ) (u : ℤ) (g : Graph) (s : DState) : DState :=
  (adjOf g u).foldl (relaxOne d u) s

/-- The `while heap:` loop (lines 677–689) with explicit fuel; `none`
means the fuel ran out (the fuel used by `_shortest_path` is proved
sufficient, so this branch is never taken there). -/
def dloop (g : Graph) (goal : ℤ) : Nat → DState → Option DState
  | 0, _ => none
  | fuel + 1, s =>
    match popMin s.heap with
    | none => some s
    | some ((d, u), h') =>
      if u ∈ s.visited then dloop g goal fuel { s with heap := h' }
      else
        let s1 : DState := { s with heap := h', visited := insert u s.visited }
        if u = goal then some s1
        else dloop g goal fuel (relaxAll d u g s1)

/-- Fuel bound for the loop: every iteration pops one entry, and at most
one initial entry plus one entry per adjacency record is ever pushed. -/
def fuelBound (g : Graph) : Nat := (g.map fun p => p.2.length).sum + 2

/-- The backward reconstruction loop `while cur in prev and prev[cur] is
not None: cur = prev[cur]; path.append(cur)` (lines 695–700), with fuel.
The fuel used below (`visited.card + 1`) is proved to cover the whole
chain, which cannot revisit a node. -/
def chainFuel (prev : ℤ → Option (Option ℤ)) : Nat → ℤ → List ℤ
  | 0, cur => [cur]
  | f + 1, cur =>
    match prev cur with
    | some (some p) => cur :: chainFuel prev f p
    | _ => [cur]

/-- The initial state `dist = {start: 0.0}; prev = {start: None};
heap = [(0.0, start)]; visited = set()` (lines 672–675). -/
def dinit (start : ℤ) : DState :=
  { dist := fun n => if n = start then some 0 else none
    prev := fun n => if n = start then some none else none
    heap := [(0, start)]
    visited := ∅ }

/-- `_shortest_path(graph, start, goal)` (lines 670–705): run the loop,
return `[]` when `goal not in prev and goal != start`, otherwise walk the
predecessor chain from `goal`, check it reached `start`, and reverse. -/
def _shortest_path (g : Graph) (start goal : ℤ) : List ℤ :=
  match dloop g goal (fuelBound g) (dinit start) with
  | none => []
  | some s =>
    if s.prev goal = none ∧ goal ≠ start then []
    else
      let path := chainFuel s.prev (s.visited.card + 1) goal
      if path.getLast? = some start then path.reverse else []

/-- Total adjacency-record count over unvisited graph entries. -/
def unvisSum (g : Graph) (visited : Finset ℤ) : Nat :=
  ((g.filter fun p => decide (p.1 ∉ visited)).map fun p => p.2.length).sum

/-- The loop-measure: heap size plus the adjacency records of unvisited
graph entries; it strictly decreases on every iteration. -/
def phi (g : Graph) (s : DState) : Nat :=
  s.heap.length + unvisSum g s.visited

/-- Directed reachability along stored adjacency entries. -/
def Reach (g : Graph) (s t : ℤ) : Prop :=
  Relation.ReflTransGen (fun a b => ∃ w, (b, w) ∈ adjOf g a) s t

/-- All stored edge weights are non-negative (decidable form over the
entry list; haversine weights are non-negative). -/
def NonnegWeights (g : Graph) : Prop := ∀ p ∈ g, ∀ e ∈ p.2, 0 ≤ e.2

instance (g : Graph) : Decidable (NonnegWeights g) := by
  unfold NonnegWeights
  infer_instance

/-- Walks through the graph annotated with their total weight. -/
inductive CostedWalk (g : Graph) : ℤ → ℤ → ℚ → Prop
  | refl (u : ℤ) : CostedWalk g u u 0
  | step {s u v : ℤ} {c w : ℚ} :
      CostedWalk g s u c → (v, w) ∈ adjOf g u → CostedWalk g s v (c + w)

/-- A node sequence together with its total weight along stored edges. -/
inductive WeightedPath (g : Graph) : List ℤ → ℚ → Prop
  | single (u : ℤ) : WeightedPath g [u] 0
  | cons {a b : ℤ} {rest : List ℤ} {w c : ℚ} :
      (b, w) ∈ adjOf g a → WeightedPath g (b :: rest) c →
      WeightedPath g (a :: b :: rest) (w + c)

/-- The predecessor chains walked by the reconstruction. -/
inductive Chain (prev : ℤ → Option (Option ℤ)) : ℤ → List ℤ → Prop
  | base {v : ℤ} : prev v = some none → Chain prev v [v]
  | cons {v u : ℤ} {l : List ℤ} :
      prev v = some (some u) → Chain prev u l → Chain prev v (v :: l)

/-- All outgoing records of `u'` have been relaxed. -/
def RelaxedAt (g : Graph) (s : DState) (u' : ℤ) : Prop :=
  ∀ e ∈ adjOf g u', ∃ du dz, s.dist u' = some du ∧ s.dist e.1 = some dz ∧
    dz ≤ du + e.2

/-- The Dijkstra loop invariant (everything except full relaxation of the
visited set, which the `u == goal` break skips for `goal`). -/
structure DCore (g : Graph) (start : ℤ) (s : DState) : Prop where
  hkeys : ∀ p ∈ s.heap, 0 ≤ p.1
  hdist : ∀ p ∈ s.heap, ∃ dx, s.dist p.2 = some dx ∧ dx ≤ p.1
  vless : ∀ v ∈ s.visited, ∃ dv, s.dist v = some dv ∧ ∀ p ∈ s.heap, dv ≤ p.1
  prevEdge : ∀ v u', s.prev v = some (some u') → u' ∈ s.visited ∧
    ∃ w du dv, (v, w) ∈ adjOf g u' ∧ s.dist u' = some du ∧
      s.dist v = some dv ∧ dv = du + w
  prevStart : s.prev start = some none
  distStart : s.dist start = some 0
  prevNone : ∀ v, s.prev v = some none → v = start
  domIff : ∀ v, (s.dist v).isSome ↔ (s.prev v).isSome
  visSome : ∀ v ∈ s.visited, (s.dist v).isSome
  unvisHeap : ∀ z dz, z ∉ s.visited → s.dist z = some dz → (dz, z) ∈ s.heap
  chains : ∀ v, (s.prev v).isSome → ∃ l, Chain s.prev v l ∧ l.Nodup ∧
    l.getLast? = some start ∧ ∀ x ∈ l.tail, x ∈ s.visited
  lb : ∀ v ∈ s.visited, ∀ dv, s.dist v = some dv →
    ∀ c, CostedWalk g start v c → dv ≤ c

/-- The coordinate polyline of a node path (line 221: `osm_nodes[nid]`;
the default is irrelevant because every path node is looked up
successfully under the theorems' hypotheses). -/
def routeCoords (N : NodeTable) (l : List ℤ) : List Coord :=
  l.map fun nid => (alookup N nid).getD (0, 0)

/-- `_polyline_length` (lines 602–607): the sum of distances between
consecutive coordinates. -/
def _polyline_length (hv : ℚ → ℚ → ℚ → ℚ → ℚ) (coords : List Coord) : ℚ :=
  ((coords.zip coords.tail).map fun p => hv p.1.1 p.1.2 p.2.1 p.2.2).sum

/-- Weight provenance in a hybrid graph: every stored weight is the
distance of its endpoints times one of the two multipliers. -/
def HybProv (hv : ℚ → ℚ → ℚ → ℚ → ℚ) (N : NodeTable) (pw rw : ℚ)
    (g : Graph) : Prop :=
  ∀ u v w, (v, w) ∈ adjOf g u →
    ∃ cu cv, alookup N u = some cu ∧ alookup N v = some cv ∧
      (w = hv cu.1 cu.2 cv.1 cv.2 * pw ∨ w = hv cu.1 cu.2 cv.1 cv.2 * rw)

/-- Invariant of the builder accumulator: every stored edge is symmetric
and its weight is the distance between the two endpoint coordinates. -/
def SymProv (hv : ℚ → ℚ → ℚ → ℚ → ℚ) (N : NodeTable) (g : Graph) : Prop :=
  ∀ u v w, ((v, w) ∈ adjOf g u → (u, w) ∈ adjOf g v) ∧
    ((v, w) ∈ adjOf g u →
      ∃ cu cv, alookup N u = some cu ∧ alookup N v = some cv ∧
        w = hv cu.1 cu.2 cv.1 cv.2)

/-- Presence invariant: both endpoints of every stored edge are keys of
the node table. -/
def PresProv (N : NodeTable) (g : Graph) : Prop :=
  ∀ u v w, (v, w) ∈ adjOf g u →
    (alookup N u).isSome = true ∧ (alookup N v).isSome = true

/-- Invariant of the `_nearest_node` scan over the processed prefix `S`. -/
def NNInv (hv : ℚ → ℚ → ℚ → ℚ → ℚ) (point : Coord) (g : Graph) (maxd : ℚ)
    (S : List (ℤ × Coord)) (best : Option (ℤ × ℚ)) : Prop :=
  (best = none → ∀ p ∈ S, graphHasKey g p.1 = true →
      maxd < hv point.1 point.2 p.2.1 p.2.2) ∧
    ∀ n bd, best = some (n, bd) →
      graphHasKey g n = true ∧ bd ≤ maxd ∧
        (∃ c, (n, c) ∈ S ∧ bd = hv point.1 point.2 c.1 c.2) ∧
        ∀ p ∈ S, graphHasKey g p.1 = true →
          bd ≤ hv point.1 point.2 p.2.1 p.2.2

/-- Every value stored in the category map was one of the inserts `I`. -/
def emapFrom (m : EMap) (I : List ((ℤ × ℤ) × String)) : Prop :=
  ∀ k c, alookup m k = some c → (k, c) ∈ I

/-- No two inserts give the same unordered node pair different categories. -/
def noConflict (ways : List Way) : Prop :=
  ∀ p ∈ allInserts ways, ∀ q ∈ allInserts ways, p.1 = q.1 → p.2 = q.2

instance (ways : List Way) : Decidable (noConflict ways) := by
  unfold noConflict
  infer_instance

/-- A small concrete graph (two components) used to instantiate the
search theorems. -/
def sampleGraph : Graph :=
  [(1, [(2, 2)]), (2, [(1, 2), (3, 3)]), (3, [(2, 3)]),
   (4, [(5, 1)]), (5, [(4, 1)])]

/-- Counterexample node table: node 2 is close to node 1, node 3 far from
both, all distances in the sample metric. -/
def cNodes : NodeTable := [(1, (0, 0)), (2, (6, 0)), (3, (0, 40))]

/-- Two pedestrian ways forming the long detour 1–3–2. -/
def cPedWays : List Way := [⟨[1, 3], some "path", none⟩, ⟨[3, 2], some "path", none⟩]

/-- One road way forming the short direct link 1–2. -/
def cRoadWays : List Way := [⟨[1, 2], none, some "residential"⟩]

/-- The pedestrian graph `_build_graph` produces from `cPedWays`. -/
def cGP : Graph := [(1, [(3, 40)]), (3, [(1, 40), (2, 46)]), (2, [(3, 46)])]

/-- Its edge-category map. -/
def cMP : EMap := [((1, 3), "path"), ((2, 3), "path")]

/-- The hybrid graph (pedestrian weight 1, road weight 3). -/
def cGH : Graph :=
  [(1, [(3, 40), (2, 18)]), (3, [(1, 40), (2, 46)]), (2, [(3, 46), (1, 18)])]

/-- Its edge-category map. -/
def cMH : EMap := [((1, 3), "path"), ((2, 3), "path"), ((1, 2), "highway")]

/-! ## Association-list lemmas -/

theorem alookup_appendAdj (g : Graph) (u : ℤ) (e : ℤ × ℚ) (x : ℤ) :
    adjOf (appendAdj g u e) x = if x = u then adjOf g x ++ [e] else adjOf g x := by
  induction g with
  | nil =>
    by_cases hxu : x = u <;> simp [appendAdj, adjOf, alookup, hxu]
  | cons hd tl ih =>
    obtain ⟨k, l⟩ := hd
    by_cases hku : k = u
    · subst hku
      by_cases hxk : x = k <;> simp [appendAdj, adjOf, alookup, hxk]
    · by_cases hxk : x = k
      · subst hxk
        simp [appendAdj, hku, adjOf, alookup, Ne.symm hku]
      · simpa [appendAdj, hku, adjOf, alookup, hxk] using ih

theorem mem_adjOf_addEdge {g : Graph} {u v : ℤ} {w : ℚ} {x : ℤ} {e : ℤ × ℚ} :
    e ∈ adjOf (addEdge g u v w) x ↔
      e ∈ adjOf g x ∨ (x = u ∧ e = (v, w)) ∨ (x = v ∧ e = (u, w)) := by
  unfold addEdge
  rw [alookup_appendAdj, alookup_appendAdj]
  by_cases hxv : x = v
  · subst hxv
    by_cases hxu : x = u
    · subst hxu
      simp [or_comm]
    · simp [hxu, or_comm]
  · by_cases hxu : x = u
    · subst hxu
      simp [hxv, or_comm]
    · simp [hxv, hxu]

theorem graphHasKey_appendAdj (g : Graph) (u : ℤ) (e : ℤ × ℚ) (x : ℤ) :
    graphHasKey (appendAdj g u e) x = (graphHasKey g x || decide (x = u)) := by
  induction g with
  | nil =>
    by_cases hxu : x = u <;> simp [appendAdj, graphHasKey, alookup, hxu]
  | cons hd tl ih =>
    obtain ⟨k, l⟩ := hd
    by_cases hku : k = u
    · subst hku
      by_cases hxk : x = k <;> simp [appendAdj, graphHasKey, alookup, hxk]
    · by_cases hxk : x = k
      · subst hxk
        simp [appendAdj, hku, graphHasKey, alookup, Ne.symm hku]
      · simpa [appendAdj, hku, graphHasKey, alookup, hxk] using ih

theorem alookup_emapSet (m : EMap) (k : ℤ × ℤ) (c : String) (k' : ℤ × ℤ) :
    alookup (emapSet m k c) k' = if k' = k then some c else alookup m k' := by
  induction m with
  | nil =>
    by_cases h : k' = k <;> simp [emapSet, alookup, h]
  | cons hd tl ih =>
    obtain ⟨k0, c0⟩ := hd
    by_cases hk : k = k0
    · subst hk
      by_cases h : k' = k <;> simp [emapSet, alookup, h]
    · by_cases h : k' = k0
      · subst h
        simp [emapSet, hk, alookup, Ne.symm hk]
      · simpa [emapSet, hk, alookup, h] using ih

theorem emapSet_of_lookup_eq {m : EMap} {k : ℤ × ℤ} {c : String}
    (h : alookup m k = some c) : emapSet m k c = m := by
  induction m with
  | nil => simp [alookup] at h
  | cons hd tl ih =>
    obtain ⟨k0, c0⟩ := hd
    by_cases hk : k = k0
    · subst hk
      simp [alookup] at h
      simp [emapSet, h]
    · simp [alookup, hk] at h
      simp [emapSet, hk, ih h]

end RailNav

/-! ## C10 — bounding-box expansion near the poles -/

namespace RailNav

/-- **C10** (code bug demonstration).  The claim says the latitude fed to
the cosine division of `_bbox_from_point_radius` is clamped away from ±90°
so the longitude half-width can never blow up.  The code contains no such
clamp: at `lat = 90` the divisor `111320·cos(radians(lat))` is exactly `0`
in real arithmetic, so the formula divides by zero (in Lean's reals
`x / 0 = 0`, collapsing the longitude half-width to `0` and producing the
degenerate box below; in Python only floating-point rounding of
`cos(radians(90)) ≈ 6.1e-17` avoids a `ZeroDivisionError`, yielding an
astronomically wide box instead). -/
theorem C10_bbox_divisor_vanishes_at_pole :
    (111320 : ℝ) * Real.cos ((90 : ℝ) * Real.pi / 180) = 0 ∧
      _bbox_from_point_radius 90 5 600 =
        (90 - 600 / 111320, 5, 90 + 600 / 111320, 5) := by
  have hc : (90 : ℝ) * Real.pi / 180 = Real.pi / 2 := by ring
  have h0 : Real.cos ((90 : ℝ) * Real.pi / 180) = 0 := by
    rw [hc, Real.cos_pi_div_two]
  refine ⟨by rw [h0, mul_zero], ?_⟩
  simp only [_bbox_from_point_radius, h0, mul_zero, div_zero, sub_zero, add_zero]

end RailNav

/-! ## C7 — classification of `footway=crossing` ways -/

namespace RailNav

/-- **C7 counterexample.**  The claim says a `highway=footway,
footway=crossing` way *without* a marked/controlled crossing subtype falls
through to the dedicated-footway rule (`some "foot_path"`).  On the code it
is excluded: the `footway == 'crossing'` branch sets `include_way = False`
unconditionally (lines 474–476), never consulting the `crossing` tag. -/
theorem C7_counterexample :
    classifyWay "footway" "crossing" "" "" "" = none := by
  decide

/-- **C7 (amended).**  A `highway=footway` way with `footway=crossing` is
always excluded from the pedestrian navigation graph, regardless of its
`crossing` subtype; a footway whose subtype is neither `sidewalk` nor
`crossing` is classified as `foot_path`. -/
theorem C7_footway_crossing_always_excluded
    (c i t fs c' i' t' : String)
    (h1 : fs ≠ "sidewalk") (h2 : fs ≠ "crossing") :
    classifyWay "footway" "crossing" c i t = none ∧
      classifyWay "footway" fs c' i' t' = some "foot_path" := by
  constructor
  · simp [classifyWay]
  · simp [classifyWay, h1, h2]

/-- Witness for C7: a plain footway (empty subtype) is routable as
`foot_path` while `footway=crossing` with `crossing=marked` is excluded. -/
theorem C7_witness :
    classifyWay "footway" "crossing" "marked" "" "" = none ∧
      classifyWay "footway" "" "" "" "" = some "foot_path" :=
  C7_footway_crossing_always_excluded "marked" "" "" "" "" "" ""
    (by decide) (by decide)

end RailNav

/-! ## C1 — edge symmetry and weight provenance of `_build_graph` -/

namespace RailNav

theorem symProv_nil (hv : ℚ → ℚ → ℚ → ℚ → ℚ) (N : NodeTable) :
    SymProv hv N [] := by
  intro u v w
  simp [adjOf, alookup]

/-- The sample distance function is symmetric, like the haversine. -/
theorem hvSample_symm : ∀ a b c d, hvSample a b c d = hvSample c d a b := by
  intro a b c d
  have key : ∀ x y : ℚ, (if x ≤ y then y - x else x - y) =
      (if y ≤ x then x - y else y - x) := by
    intro x y
    split_ifs <;> linarith
  simp only [hvSample, key a c, key b d]

theorem symProv_addEdge {hv : ℚ → ℚ → ℚ → ℚ → ℚ} {N : NodeTable} {g : Graph}
    {u v : ℤ} {cu cv : Coord}
    (hsym : ∀ a b c d, hv a b c d = hv c d a b) (hg : SymProv hv N g)
    (hcu : alookup N u = some cu) (hcv : alookup N v = some cv) :
    SymProv hv N (addEdge g u v (hv cu.1 cu.2 cv.1 cv.2)) := by
  intro a b w
  constructor
  · intro hmem
    rcases mem_adjOf_addEdge.1 hmem with h0 | ⟨hau, hbw⟩ | ⟨hav, hbw⟩
    · exact mem_adjOf_addEdge.2 (Or.inl ((hg a b w).1 h0))
    · rcases Prod.mk.injEq .. ▸ hbw with ⟨hbv, hww⟩
      exact mem_adjOf_addEdge.2 (Or.inr (Or.inr ⟨hbv ▸ rfl, by simp [hau, hww]⟩))
    · rcases Prod.mk.injEq .. ▸ hbw with ⟨hbu, hww⟩
      exact mem_adjOf_addEdge.2 (Or.inr (Or.inl ⟨hbu ▸ rfl, by simp [hav, hww]⟩))
  · intro hmem
    rcases mem_adjOf_addEdge.1 hmem with h0 | ⟨hau, hbw⟩ | ⟨hav, hbw⟩
    · exact (hg a b w).2 h0
    · rcases Prod.mk.injEq .. ▸ hbw with ⟨hbv, hww⟩
      exact ⟨cu, cv, by simp [hau, hcu], by simp [hbv, hcv], hww⟩
    · rcases Prod.mk.injEq .. ▸ hbw with ⟨hbu, hww⟩
      exact ⟨cv, cu, by simp [hav, hcv], by simp [hbu, hcu],
        hww.trans (hsym cu.1 cu.2 cv.1 cv.2)⟩

theorem buildPairs_symProv {hv : ℚ → ℚ → ℚ → ℚ → ℚ} {N : NodeTable}
    {cat : String} (hsym : ∀ a b c d, hv a b c d = hv c d a b) :
    ∀ (ps : List (ℤ × ℤ)) (g : Graph) (m : EMap) (g' : Graph) (m' : EMap),
      SymProv hv N g → buildPairs hv N cat (g, m) ps = .ok (g', m') →
      SymProv hv N g'
  | [], g, m, g', m', hg, hstep => by
    simp [buildPairs] at hstep
    exact hstep.1 ▸ hg
  | (u, v) :: rest, g, m, g', m', hg, hstep => by
    rcases hu : alookup N u with _ | cu <;> rcases hvv : alookup N v with _ | cv <;>
      simp [buildPairs, hu, hvv] at hstep
    exact buildPairs_symProv hsym rest _ _ g' m'
      (symProv_addEdge hsym hg hu hvv) hstep

theorem buildWays_symProv {hv : ℚ → ℚ → ℚ → ℚ → ℚ} {N : NodeTable}
    (hsym : ∀ a b c d, hv a b c d = hv c d a b) :
    ∀ (ways : List Way) (g : Graph) (m : EMap) (g' : Graph) (m' : EMap),
      SymProv hv N g → buildWays hv N (g, m) ways = .ok (g', m') →
      SymProv hv N g'
  | [], g, m, g', m', hg, hstep => by
    simp [buildWays] at hstep
    exact hstep.1 ▸ hg
  | w :: rest, g, m, g', m', hg, hstep => by
    rcases hs : buildPairs hv N (wayCategory w) (g, m) (pairsOf w.nodes) with e | ⟨g1, m1⟩
    · simp [buildWays, hs] at hstep
    · rw [buildWays, hs] at hstep
      exact buildWays_symProv hsym rest g1 m1 g' m'
        (buildPairs_symProv hsym _ g m g1 m1 hg hs) hstep

/-- **C1.**  In every graph returned by `_build_graph`, each stored edge
`(v, w) ∈ graph[u]` is mirrored as `(u, w) ∈ graph[v]` with the same
weight, and the weight is exactly the distance `hv` (standing for
`_haversine_m`, multiplier 1.0) between the coordinates of the two
endpoints as looked up in the node table. -/
theorem C1_build_graph_symmetric_haversine_weights
    (hv : ℚ → ℚ → ℚ → ℚ → ℚ) (N : NodeTable) (ways : List Way)
    (g : Graph) (m : EMap) (u v : ℤ) (w : ℚ)
    (hsym : ∀ a b c d, hv a b c d = hv c d a b)
    (h : _build_graph hv N ways = .ok (g, m)) :
    ((v, w) ∈ adjOf g u ↔ (u, w) ∈ adjOf g v) ∧
      ((v, w) ∈ adjOf g u →
        ∃ cu cv, alookup N u = some cu ∧ alookup N v = some cv ∧
          w = hv cu.1 cu.2 cv.1 cv.2) := by
  have hsp : SymProv hv N g :=
    buildWays_symProv hsym ways [] [] g m (symProv_nil hv N) h
  exact ⟨⟨(hsp u v w).1, (hsp v u w).1⟩, (hsp u v w).2⟩

/-- Witness for C1 on a two-node footway. -/
theorem C1_witness :
    (((2 : ℤ), (7 : ℚ)) ∈ adjOf [(1, [(2, 7)]), (2, [(1, 7)])] 1 ↔
      ((1 : ℤ), (7 : ℚ)) ∈ adjOf [(1, [(2, 7)]), (2, [(1, 7)])] 2) ∧
      (((2 : ℤ), (7 : ℚ)) ∈ adjOf [(1, [(2, 7)]), (2, [(1, 7)])] 1 →
        ∃ cu cv, alookup [((1 : ℤ), ((0 : ℚ), (0 : ℚ))), (2, (3, 4))] 1 = some cu ∧
          alookup [((1 : ℤ), ((0 : ℚ), (0 : ℚ))), (2, (3, 4))] 2 = some cv ∧
          (7 : ℚ) = hvSample cu.1 cu.2 cv.1 cv.2) :=
  C1_build_graph_symmetric_haversine_weights hvSample
    [(1, (0, 0)), (2, (3, 4))] [⟨[1, 2], some "foot_path", some "footway"⟩]
    [(1, [(2, 7)]), (2, [(1, 7)])] [((1, 2), "foot_path")] 1 2 7
    hvSample_symm
    (by norm_num [_build_graph, buildWays, buildPairs, hvSample, alookup,
      addEdge, appendAdj, emapSet, ekey, wayCategory, pairsOf])

end RailNav

/-! ## C9 — `_build_graph` and absent node references -/

namespace RailNav

theorem mem_pairsOf {l : List ℤ} {p : ℤ × ℤ} (h : p ∈ pairsOf l) :
    p.1 ∈ l ∧ p.2 ∈ l := by
  obtain ⟨a, b⟩ := p
  have h2 := List.of_mem_zip h
  exact ⟨h2.1, List.mem_of_mem_tail h2.2⟩

theorem buildPairs_ok {hv : ℚ → ℚ → ℚ → ℚ → ℚ} {N : NodeTable} {cat : String} :
    ∀ (ps : List (ℤ × ℤ)) (s : Graph × EMap),
      (∀ p ∈ ps, (alookup N p.1).isSome ∧ (alookup N p.2).isSome) →
      ∃ s', buildPairs hv N cat s ps = .ok s'
  | [], s, _ => ⟨s, rfl⟩
  | (u, v) :: rest, (g, m), h => by
    obtain ⟨cu, hu⟩ := Option.isSome_iff_exists.1 (h (u, v) (by simp)).1
    obtain ⟨cv, hvv⟩ := Option.isSome_iff_exists.1 (h (u, v) (by simp)).2
    have hrest := @buildPairs_ok hv N cat rest
      (addEdge g u v (hv cu.1 cu.2 cv.1 cv.2),
        match alookup m (ekey u v) with
        | some prev =>
          if type_rank cat > type_rank prev then emapSet m (ekey u v) cat else m
        | none => emapSet m (ekey u v) cat)
      (fun p hp => h p (by simp [hp]))
    obtain ⟨s', hs'⟩ := hrest
    exact ⟨s', by rw [buildPairs, hu, hvv]; exact hs'⟩

theorem buildWays_ok {hv : ℚ → ℚ → ℚ → ℚ → ℚ} {N : NodeTable} :
    ∀ (ways : List Way) (s : Graph × EMap),
      (∀ w ∈ ways, ∀ n ∈ w.nodes, (alookup N n).isSome) →
      ∃ s', buildWays hv N s ways = .ok s'
  | [], s, _ => ⟨s, rfl⟩
  | w :: rest, s, h => by
    obtain ⟨s1, hs1⟩ := @buildPairs_ok hv N (wayCategory w)
      (pairsOf w.nodes) s
      (fun p hp => by
        have hm := mem_pairsOf hp
        exact ⟨h w (by simp) p.1 hm.1, h w (by simp) p.2 hm.2⟩)
    obtain ⟨s', hs'⟩ := @buildWays_ok hv N rest s1
      (fun w' hw' n hn => h w' (by simp [hw']) n hn)
    exact ⟨s', by rw [buildWays, hs1]; exact hs'⟩

theorem presProv_addEdge {N : NodeTable} {g : Graph} {u v : ℤ} {w0 : ℚ}
    (hg : PresProv N g)
    (hu : (alookup N u).isSome = true) (hvv : (alookup N v).isSome = true) :
    PresProv N (addEdge g u v w0) := by
  intro a b w hmem
  rcases mem_adjOf_addEdge.1 hmem with h0 | ⟨hau, hbw⟩ | ⟨hav, hbw⟩
  · exact hg a b w h0
  · rcases Prod.mk.injEq .. ▸ hbw with ⟨hbv, -⟩
    exact ⟨hau ▸ hu, hbv ▸ hvv⟩
  · rcases Prod.mk.injEq .. ▸ hbw with ⟨hbu, -⟩
    exact ⟨hav ▸ hvv, hbu ▸ hu⟩

theorem buildPairs_presProv {hv : ℚ → ℚ → ℚ → ℚ → ℚ} {N : NodeTable}
    {cat : String} :
    ∀ (ps : List (ℤ × ℤ)) (g : Graph) (m : EMap) (g' : Graph) (m' : EMap),
      PresProv N g → buildPairs hv N cat (g, m) ps = .ok (g', m') →
      PresProv N g'
  | [], g, m, g', m', hg, hstep => by
    simp [buildPairs] at hstep
    exact hstep.1 ▸ hg
  | (u, v) :: rest, g, m, g', m', hg, hstep => by
    rcases hu : alookup N u with _ | cu <;> rcases hvv : alookup N v with _ | cv <;>
      simp [buildPairs, hu, hvv] at hstep
    exact buildPairs_presProv rest _ _ g' m'
      (presProv_addEdge hg (by simp [hu]) (by simp [hvv])) hstep

theorem buildWays_presProv {hv : ℚ → ℚ → ℚ → ℚ → ℚ} {N : NodeTable} :
    ∀ (ways : List Way) (g : Graph) (m : EMap) (g' : Graph) (m' : EMap),
      PresProv N g → buildWays hv N (g, m) ways = .ok (g', m') →
      PresProv N g'
  | [], g, m, g', m', hg, hstep => by
    simp [buildWays] at hstep
    exact hstep.1 ▸ hg
  | w :: rest, g, m, g', m', hg, hstep => by
    rcases hs : buildPairs hv N (wayCategory w) (g, m) (pairsOf w.nodes) with e | ⟨g1, m1⟩
    · simp [buildWays, hs] at hstep
    · rw [buildWays, hs] at hstep
      exact buildWays_presProv rest g1 m1 g' m'
        (buildPairs_presProv _ g m g1 m1 hg hs) hstep

/-- **C9 counterexample.**  `_build_graph` *does* fault on a way whose node
list references an identifier absent from the node table: with an empty
node table, `nodes[u]` raises `KeyError` (modelled `Except.error`). -/
theorem C9_counterexample :
    _build_graph hvSample [] [⟨[1, 2], some "path", none⟩] = .error () := by
  rfl

/-- **C9 (amended).**  `_build_graph` assumes every referenced node id is
present in the node table — it faults on an absent reference (see the
counterexample; the membership filtering described by the spec is done by
the fetchers and by `_build_hybrid_graph`, not here).  When all references
are present it succeeds, and every stored edge joins two present nodes. -/
theorem C9_build_graph_requires_present_nodes
    (hv : ℚ → ℚ → ℚ → ℚ → ℚ) (N : NodeTable) (ways : List Way)
    (u v : ℤ) (w : ℚ)
    (hpres : ∀ wy ∈ ways, ∀ n ∈ wy.nodes, (alookup N n).isSome = true) :
    (_build_graph hv N ways).toOption.isSome = true ∧
      ((v, w) ∈ builtAdj hv N ways u →
        (alookup N u).isSome = true ∧ (alookup N v).isSome = true) := by
  obtain ⟨⟨g, m⟩, hok⟩ := @buildWays_ok hv N ways ([], [])
    (fun w' hw' n hn => hpres w' hw' n hn)
  have hbuild : _build_graph hv N ways = .ok (g, m) := hok
  refine ⟨by rw [hbuild]; rfl, ?_⟩
  intro hmem
  have hpp : PresProv N g :=
    buildWays_presProv ways [] [] g m (by intro a b w'; simp [adjOf, alookup]) hok
  rw [builtAdj, hbuild] at hmem
  exact hpp u v w hmem

/-- Witness for C9 on a two-node footway with both nodes present. -/
theorem C9_witness :
    (_build_graph hvSample [(1, (0, 0)), (2, (3, 4))]
        [⟨[1, 2], some "foot_path", some "footway"⟩]).toOption.isSome = true ∧
      (((2 : ℤ), (7 : ℚ)) ∈ builtAdj hvSample [(1, (0, 0)), (2, (3, 4))]
          [⟨[1, 2], some "foot_path", some "footway"⟩] 1 →
        (alookup [((1 : ℤ), ((0 : ℚ), (0 : ℚ))), (2, (3, 4))] 1).isSome = true ∧
          (alookup [((1 : ℤ), ((0 : ℚ), (0 : ℚ))), (2, (3, 4))] 2).isSome = true) :=
  C9_build_graph_requires_present_nodes hvSample
    [(1, (0, 0)), (2, (3, 4))] [⟨[1, 2], some "foot_path", some "footway"⟩]
    1 2 7 (by decide)

end RailNav

/-! ## C8 — the nearest-node resolver -/

namespace RailNav

theorem nnInv_step {hv : ℚ → ℚ → ℚ → ℚ → ℚ} {point : Coord} {g : Graph}
    {maxd : ℚ} {S : List (ℤ × Coord)} {best : Option (ℤ × ℚ)}
    (h : NNInv hv point g maxd S best) (p : ℤ × Coord) :
    NNInv hv point g maxd (S ++ [p]) (nnStep hv point g maxd best p) := by
  obtain ⟨hnone, hsome⟩ := h
  by_cases hk : graphHasKey g p.1 = true
  · rcases hbest : best with _ | ⟨n, bd⟩
    · subst hbest
      by_cases hdm : hv point.1 point.2 p.2.1 p.2.2 ≤ maxd
      · have hstep : nnStep hv point g maxd none p =
            some (p.1, hv point.1 point.2 p.2.1 p.2.2) := by
          simp [nnStep, hk, hdm]
        rw [hstep]
        refine ⟨by simp, ?_⟩
        intro n' bd' hb'
        simp only [Option.some.injEq, Prod.mk.injEq] at hb'
        obtain ⟨hn1, hbd1⟩ := hb'
        subst hn1; subst hbd1
        refine ⟨hk, hdm, ⟨p.2, by simp, rfl⟩, ?_⟩
        intro q hq hkq
        rcases List.mem_append.1 hq with hq | hq
        · exact le_of_lt (lt_of_le_of_lt hdm (hnone rfl q hq hkq))
        · simp only [List.mem_singleton] at hq
          rw [hq]
      · have hstep : nnStep hv point g maxd none p = none := by
          simp [nnStep, hk, hdm]
        rw [hstep]
        refine ⟨?_, by simp⟩
        intro _ q hq hkq
        rcases List.mem_append.1 hq with hq | hq
        · exact hnone rfl q hq hkq
        · simp only [List.mem_singleton] at hq
          rw [hq]
          exact lt_of_not_le hdm
    · subst hbest
      obtain ⟨hkn, hbdm, ⟨c, hc, hbdc⟩, hmin⟩ := hsome n bd rfl
      by_cases hcond : hv point.1 point.2 p.2.1 p.2.2 < bd ∧
          hv point.1 point.2 p.2.1 p.2.2 ≤ maxd
      · have hstep : nnStep hv point g maxd (some (n, bd)) p =
            some (p.1, hv point.1 point.2 p.2.1 p.2.2) := by
          simp only [nnStep, hk, if_true]
          rw [if_pos hcond]
        rw [hstep]
        refine ⟨by simp, ?_⟩
        intro n' bd' hb'
        simp only [Option.some.injEq, Prod.mk.injEq] at hb'
        obtain ⟨hn1, hbd1⟩ := hb'
        subst hn1; subst hbd1
        refine ⟨hk, hcond.2, ⟨p.2, by simp, rfl⟩, ?_⟩
        intro q hq hkq
        rcases List.mem_append.1 hq with hq | hq
        · exact le_of_lt (lt_of_lt_of_le hcond.1 (hmin q hq hkq))
        · simp only [List.mem_singleton] at hq
          rw [hq]
      · have hstep : nnStep hv point g maxd (some (n, bd)) p = some (n, bd) := by
          simp only [nnStep, hk, if_true]
          rw [if_neg hcond]
        rw [hstep]
        refine ⟨by simp, ?_⟩
        intro n' bd' hb'
        simp only [Option.some.injEq, Prod.mk.injEq] at hb'
        obtain ⟨hn1, hbd1⟩ := hb'
        subst hn1; subst hbd1
        refine ⟨hkn, hbdm, ⟨c, by simp [hc], hbdc⟩, ?_⟩
        intro q hq hkq
        rcases List.mem_append.1 hq with hq | hq
        · exact hmin q hq hkq
        · simp only [List.mem_singleton] at hq
          rw [hq]
          rcases not_and_or.1 hcond with h' | h'
          · exact le_of_not_lt h'
          · exact le_of_lt (lt_of_le_of_lt hbdm (lt_of_not_le h'))
  · have hstep : nnStep hv point g maxd best p = best := by
      simp [nnStep, hk]
    rw [hstep]
    refine ⟨?_, ?_⟩
    · intro hb q hq hkq
      rcases List.mem_append.1 hq with hq | hq
      · exact hnone hb q hq hkq
      · simp only [List.mem_singleton] at hq
        rw [hq] at hkq
        exact absurd hkq hk
    · intro n bd hb
      obtain ⟨hkn, hbdm, ⟨c, hc, hbdc⟩, hmin⟩ := hsome n bd hb
      refine ⟨hkn, hbdm, ⟨c, by simp [hc], hbdc⟩, ?_⟩
      intro q hq hkq
      rcases List.mem_append.1 hq with hq | hq
      · exact hmin q hq hkq
      · simp only [List.mem_singleton] at hq
        rw [hq] at hkq
        exact absurd hkq hk

theorem nnInv_foldl {hv : ℚ → ℚ → ℚ → ℚ → ℚ} {point : Coord} {g : Graph}
    {maxd : ℚ} :
    ∀ (l S : List (ℤ × Coord)) (best : Option (ℤ × ℚ)),
      NNInv hv point g maxd S best →
      NNInv hv point g maxd (S ++ l) (l.foldl (nnStep hv point g maxd) best)
  | [], S, best, h => by simpa using h
  | p :: rest, S, best, h => by
    have h1 := nnInv_step h p
    have h2 := nnInv_foldl rest (S ++ [p]) (nnStep hv point g maxd best p) h1
    rw [List.append_assoc] at h2
    exact h2

/-- **C8.**  `_nearest_node` returns a key of the graph whose distance to
the query point is minimal among all graph-key entries of the node table
and is `≤ max_distance_m`; it returns `none` exactly when no graph-key
entry of the table lies within `max_distance_m`; ids absent from the graph
(zero-edge nodes) are never returned. -/
theorem C8_nearest_node_minimal_within_radius
    (hv : ℚ → ℚ → ℚ → ℚ → ℚ) (point : Coord) (N : NodeTable) (g : Graph)
    (maxd : ℚ) :
    match _nearest_node hv point N g maxd with
    | some r => graphHasKey g r = true ∧
        ∃ c, (r, c) ∈ N ∧ hv point.1 point.2 c.1 c.2 ≤ maxd ∧
          ∀ p ∈ N, graphHasKey g p.1 = true →
            hv point.1 point.2 c.1 c.2 ≤ hv point.1 point.2 p.2.1 p.2.2
    | none => ∀ p ∈ N, graphHasKey g p.1 = true →
        maxd < hv point.1 point.2 p.2.1 p.2.2 := by
  have hinv := @nnInv_foldl hv point g maxd
    N [] none (by constructor <;> simp)
  simp only [List.nil_append] at hinv
  rcases hres : N.foldl (nnStep hv point g maxd) none with _ | ⟨n, bd⟩
  · have h1 : _nearest_node hv point N g maxd = none := by
      unfold _nearest_node
      rw [hres]
      rfl
    rw [h1]
    exact hinv.1 hres
  · have h1 : _nearest_node hv point N g maxd = some n := by
      unfold _nearest_node
      rw [hres]
      rfl
    rw [h1]
    obtain ⟨hkn, hbdm, ⟨c, hc, hbdc⟩, hmin⟩ := hinv.2 n bd hres
    exact ⟨hkn, c, hc, hbdc ▸ hbdm, fun p hp hkp => hbdc ▸ hmin p hp hkp⟩

end RailNav

/-! ## C4 — order-independence of the edge-category map -/

namespace RailNav

theorem catStep_lookup (m : EMap) (ins : (ℤ × ℤ) × String) (k : ℤ × ℤ) :
    alookup (catStep m ins) k =
      if k = ins.1 then some (combine (alookup m ins.1) ins.2)
      else alookup m k := by
  rcases h : alookup m ins.1 with _ | prev
  · simp only [catStep, h, combine]
    exact alookup_emapSet m ins.1 ins.2 k
  · simp only [catStep, h, combine]
    by_cases hr : type_rank ins.2 > type_rank prev
    · rw [if_pos hr, if_pos hr, alookup_emapSet]
    · rw [if_neg hr, if_neg hr]
      by_cases hk : k = ins.1
      · rw [if_pos hk, hk, h]
      · rw [if_neg hk]

theorem combine_comm {c1 c2 : String}
    (h : c1 = c2 ∨ type_rank c1 ≠ type_rank c2) (o : Option String) :
    combine (some (combine o c1)) c2 = combine (some (combine o c2)) c1 := by
  rcases h with rfl | hne
  · rfl
  · rcases o with _ | p <;> simp only [combine] <;> split_ifs <;>
      first | rfl | omega

theorem catStep_comm {a b : (ℤ × ℤ) × String}
    (hab : a.2 = b.2 ∨ type_rank a.2 ≠ type_rank b.2) (m : EMap) :
    emapEquiv (catStep (catStep m a) b) (catStep (catStep m b) a) := by
  intro k
  simp only [catStep_lookup]
  by_cases hka : k = a.1 <;> by_cases hkb : k = b.1
  · have hba : b.1 = a.1 := by rw [← hkb, hka]
    simp only [hka, hba, if_pos rfl]
    exact congrArg some (combine_comm hab (alookup m a.1))
  · have hba : ¬ a.1 = b.1 := fun hc => hkb (hka.trans hc)
    have hba' : ¬ b.1 = a.1 := fun hc => hba hc.symm
    simp [hka, hkb, hba, hba']
  · have hab1 : ¬ b.1 = a.1 := fun hc => hka (hkb.trans hc)
    have hab1' : ¬ a.1 = b.1 := fun hc => hab1 hc.symm
    simp [hka, hkb, hab1, hab1']
  · simp [hka, hkb]

theorem foldl_catStep_congr :
    ∀ (l : List ((ℤ × ℤ) × String)) {m1 m2 : EMap}, emapEquiv m1 m2 →
      emapEquiv (l.foldl catStep m1) (l.foldl catStep m2)
  | [], _, _, h => h
  | ins :: rest, m1, m2, h => by
    apply foldl_catStep_congr rest
    intro k
    rw [catStep_lookup, catStep_lookup, h ins.1]
    by_cases hk : k = ins.1
    · rw [if_pos hk, if_pos hk]
    · rw [if_neg hk, if_neg hk]
      exact h k

theorem known_rank_cases :
    ∀ c1 ∈ knownCats, ∀ c2 ∈ knownCats,
      c1 = c2 ∨ type_rank c1 ≠ type_rank c2 := by
  decide

theorem foldl_catStep_perm {l1 l2 : List ((ℤ × ℤ) × String)}
    (hperm : l1.Perm l2) :
    (∀ ins ∈ l1, ins.2 ∈ knownCats) →
      ∀ m, emapEquiv (l1.foldl catStep m) (l2.foldl catStep m) := by
  induction hperm with
  | nil =>
    intro _ m k
    rfl
  | cons x _ ih =>
    intro hk m
    exact ih (fun ins hins => hk ins (List.mem_cons_of_mem x hins)) (catStep m x)
  | swap x y l =>
    intro hk m
    apply foldl_catStep_congr l
    have hx : x.2 ∈ knownCats := hk x (by simp)
    have hy : y.2 ∈ knownCats := hk y (by simp)
    exact catStep_comm (known_rank_cases y.2 hy x.2 hx) m
  | trans p1 _ ih1 ih2 =>
    intro hk m k
    exact (ih1 hk m k).trans (ih2 (fun ins hins => hk ins (p1.mem_iff.mpr hins)) m k)

theorem buildPairs_emap {hv : ℚ → ℚ → ℚ → ℚ → ℚ} {N : NodeTable} {cat : String} :
    ∀ (ps : List (ℤ × ℤ)) (g : Graph) (m : EMap) (g' : Graph) (m' : EMap),
      buildPairs hv N cat (g, m) ps = .ok (g', m') →
      m' = (ps.map fun p => (ekey p.1 p.2, cat)).foldl catStep m
  | [], g, m, g', m', h => by
    simp [buildPairs] at h
    exact h.2.symm
  | (u, v) :: rest, g, m, g', m', h => by
    rcases hu : alookup N u with _ | cu <;> rcases hvv : alookup N v with _ | cv <;>
      simp [buildPairs, hu, hvv] at h
    simp only [List.map_cons, List.foldl_cons]
    exact buildPairs_emap rest _ _ g' m' h

theorem buildWays_emap {hv : ℚ → ℚ → ℚ → ℚ → ℚ} {N : NodeTable} :
    ∀ (ways : List Way) (g : Graph) (m : EMap) (g' : Graph) (m' : EMap),
      buildWays hv N (g, m) ways = .ok (g', m') →
      m' = (allInserts ways).foldl catStep m
  | [], g, m, g', m', h => by
    simp [buildWays] at h
    simp [allInserts]
    exact h.2.symm
  | w :: rest, g, m, g', m', h => by
    rcases hs : buildPairs hv N (wayCategory w) (g, m) (pairsOf w.nodes) with e | ⟨g1, m1⟩
    · simp [buildWays, hs] at h
    · rw [buildWays, hs] at h
      have hm1 := buildPairs_emap (pairsOf w.nodes) g m g1 m1 hs
      have hrest := buildWays_emap rest g1 m1 g' m' h
      rw [hrest, hm1]
      simp [allInserts, List.foldl_append]

theorem buildPairs_present {hv : ℚ → ℚ → ℚ → ℚ → ℚ} {N : NodeTable} {cat : String} :
    ∀ (ps : List (ℤ × ℤ)) (s s' : Graph × EMap),
      buildPairs hv N cat s ps = .ok s' →
      ∀ p ∈ ps, (alookup N p.1).isSome ∧ (alookup N p.2).isSome
  | [], _, _, _ => by simp
  | (u, v) :: rest, (g, m), s', h => by
    rcases hu : alookup N u with _ | cu <;> rcases hvv : alookup N v with _ | cv <;>
      simp [buildPairs, hu, hvv] at h
    intro p hp
    rcases List.mem_cons.1 hp with rfl | hp
    · exact ⟨by simp [hu], by simp [hvv]⟩
    · exact buildPairs_present rest _ s' h p hp

theorem buildWays_present {hv : ℚ → ℚ → ℚ → ℚ → ℚ} {N : NodeTable} :
    ∀ (ways : List Way) (s s' : Graph × EMap),
      buildWays hv N s ways = .ok s' →
      ∀ w ∈ ways, ∀ p ∈ pairsOf w.nodes,
        (alookup N p.1).isSome ∧ (alookup N p.2).isSome
  | [], _, _, _ => by simp
  | w :: rest, s, s', h => by
    rcases hs : buildPairs hv N (wayCategory w) s (pairsOf w.nodes) with e | s1
    · simp [buildWays, hs] at h
    · rw [buildWays, hs] at h
      intro w' hw' p hp
      rcases List.mem_cons.1 hw' with rfl | hw'
      · exact buildPairs_present (pairsOf w'.nodes) s s1 hs p hp
      · exact buildWays_present rest s1 s' h w' hw' p hp

theorem buildWays_ok' {hv : ℚ → ℚ → ℚ → ℚ → ℚ} {N : NodeTable} :
    ∀ (ways : List Way) (s : Graph × EMap),
      (∀ w ∈ ways, ∀ p ∈ pairsOf w.nodes,
        (alookup N p.1).isSome ∧ (alookup N p.2).isSome) →
      ∃ s', buildWays hv N s ways = .ok s'
  | [], s, _ => ⟨s, rfl⟩
  | w :: rest, s, h => by
    obtain ⟨s1, hs1⟩ := @buildPairs_ok hv N (wayCategory w)
      (pairsOf w.nodes) s (fun p hp => h w (by simp) p hp)
    obtain ⟨s', hs'⟩ := buildWays_ok' rest s1
      (fun w' hw' p hp => h w' (by simp [hw']) p hp)
    exact ⟨s', by rw [buildWays, hs1]; exact hs'⟩

/-- **C4.**  The edge-category map built by `_build_graph` from classified
ways (ways whose category lies in the `type_rank` table) is independent of
the processing order of the ways: for permuted way lists the resulting
maps agree on every key, because conflicts are resolved to the category of
strictly higher rank and distinct classifier categories have distinct
ranks. -/
theorem C4_category_map_order_independent
    (hv : ℚ → ℚ → ℚ → ℚ → ℚ) (N : NodeTable) (ways1 ways2 : List Way)
    (k : ℤ × ℤ) (hperm : ways1.Perm ways2)
    (hcat : ∀ w ∈ ways1, wayCategory w ∈ knownCats) :
    builtCategory hv N ways1 k = builtCategory hv N ways2 k := by
  rcases h1 : _build_graph hv N ways1 with e1 | ⟨g1, m1⟩
  · rcases h2 : _build_graph hv N ways2 with e2 | ⟨g2, m2⟩
    · simp [builtCategory, h1, h2]
    · exfalso
      have hpres2 := buildWays_present ways2 ([], []) (g2, m2) h2
      obtain ⟨s', hs'⟩ := @buildWays_ok' hv N ways1 ([], [])
        (fun w hw => hpres2 w (hperm.mem_iff.1 hw))
      have hcontra : Except.error e1 = Except.ok s' := h1.symm.trans hs'
      exact Except.noConfusion hcontra
  · rcases h2 : _build_graph hv N ways2 with e2 | ⟨g2, m2⟩
    · exfalso
      have hpres1 := buildWays_present ways1 ([], []) (g1, m1) h1
      obtain ⟨s', hs'⟩ := @buildWays_ok' hv N ways2 ([], [])
        (fun w hw => hpres1 w (hperm.mem_iff.2 hw))
      have hcontra : Except.error e2 = Except.ok s' := h2.symm.trans hs'
      exact Except.noConfusion hcontra
    · have hm1 := buildWays_emap ways1 [] [] g1 m1 h1
      have hm2 := buildWays_emap ways2 [] [] g2 m2 h2
      have hpermIns : (allInserts ways1).Perm (allInserts ways2) :=
        hperm.flatMap_right _
      have hknown : ∀ ins ∈ allInserts ways1, ins.2 ∈ knownCats := by
        intro ins hins
        rw [allInserts] at hins
        obtain ⟨w, hw, hins2⟩ := List.mem_flatMap.1 hins
        obtain ⟨p, hp, rfl⟩ := List.mem_map.1 hins2
        exact hcat w hw
      have hkeq := foldl_catStep_perm hpermIns hknown [] k
      simp only [builtCategory, h1, h2]
      rw [hm1, hm2]
      exact hkeq

/-- Witness for C4: two ways covering the same node pair with categories
`sidewalk` and `path`, processed in both orders. -/
theorem C4_witness :
    builtCategory hvSample [(1, (0, 0)), (2, (3, 4))]
        [⟨[1, 2], some "sidewalk", some "footway"⟩,
         ⟨[1, 2], some "path", some "path"⟩] (1, 2) =
      builtCategory hvSample [(1, (0, 0)), (2, (3, 4))]
        [⟨[1, 2], some "path", some "path"⟩,
         ⟨[1, 2], some "sidewalk", some "footway"⟩] (1, 2) :=
  C4_category_map_order_independent hvSample [(1, (0, 0)), (2, (3, 4))]
    [⟨[1, 2], some "sidewalk", some "footway"⟩,
     ⟨[1, 2], some "path", some "path"⟩]
    [⟨[1, 2], some "path", some "path"⟩,
     ⟨[1, 2], some "sidewalk", some "footway"⟩] (1, 2)
    (by decide) (by decide)

end RailNav

/-! ## C5 — the hybrid builder versus `_build_graph` on pedestrian ways -/

namespace RailNav

theorem emapFrom_emapSet {m : EMap} {I : List ((ℤ × ℤ) × String)}
    {k : ℤ × ℤ} {c : String} (hm : emapFrom m I) (hc : (k, c) ∈ I) :
    emapFrom (emapSet m k c) I := by
  intro k' c' h'
  rw [alookup_emapSet] at h'
  by_cases hk : k' = k
  · rw [if_pos hk] at h'
    obtain rfl : c = c' := Option.some.injEq .. ▸ h'
    exact hk ▸ hc
  · rw [if_neg hk] at h'
    exact hm k' c' h'

theorem hybridPed_eq_buildPairs {hv : ℚ → ℚ → ℚ → ℚ → ℚ} {N : NodeTable}
    {cat : String} {I : List ((ℤ × ℤ) × String)}
    (hnc : ∀ p ∈ I, ∀ q ∈ I, p.1 = q.1 → p.2 = q.2) :
    ∀ (ps : List (ℤ × ℤ)) (g : Graph) (m : EMap) (g' : Graph) (m' : EMap),
      (∀ p ∈ ps, (ekey p.1 p.2, cat) ∈ I) →
      emapFrom m I →
      buildPairs hv N cat (g, m) ps = .ok (g', m') →
      hybridPedPairs hv N 1 cat (g, m) ps = (g', m') ∧ emapFrom m' I
  | [], g, m, g', m', _, hm, h => by
    simp [buildPairs] at h
    exact ⟨by simp [hybridPedPairs, h.1, h.2], h.2 ▸ hm⟩
  | (u, v) :: rest, g, m, g', m', hps, hm, h => by
    rcases hu : alookup N u with _ | cu <;> rcases hvv : alookup N v with _ | cv <;>
      simp [buildPairs, hu, hvv] at h
    have hkey : (ekey u v, cat) ∈ I := hps (u, v) (by simp)
    have hres : (match alookup m (ekey u v) with
        | some prev =>
            if type_rank cat > type_rank prev then emapSet m (ekey u v) cat else m
        | none => emapSet m (ekey u v) cat) = emapSet m (ekey u v) cat := by
      rcases hl : alookup m (ekey u v) with _ | prev
      · simp only [hl]
      · have hprev : prev = cat := hnc _ (hm (ekey u v) prev hl) _ hkey rfl
        simp only [hl, hprev]
        rw [if_neg (lt_irrefl _)]
        exact (emapSet_of_lookup_eq (hprev ▸ hl)).symm
    rw [hres] at h
    have hnext := hybridPed_eq_buildPairs hnc rest
      (addEdge g u v (hv cu.1 cu.2 cv.1 cv.2)) (emapSet m (ekey u v) cat) g' m'
      (fun p hp => hps p (by simp [hp]))
      (emapFrom_emapSet hm hkey) h
    refine ⟨?_, hnext.2⟩
    simp only [hybridPedPairs, hu, hvv]
    rw [mul_one]
    exact hnext.1

theorem hybridWays_eq_buildWays {hv : ℚ → ℚ → ℚ → ℚ → ℚ} {N : NodeTable}
    {I : List ((ℤ × ℤ) × String)}
    (hnc : ∀ p ∈ I, ∀ q ∈ I, p.1 = q.1 → p.2 = q.2) :
    ∀ (ways : List Way) (g : Graph) (m : EMap) (g' : Graph) (m' : EMap),
      (∀ w ∈ ways, ∀ p ∈ pairsOf w.nodes, (ekey p.1 p.2, wayCategory w) ∈ I) →
      emapFrom m I →
      buildWays hv N (g, m) ways = .ok (g', m') →
      ways.foldl
          (fun s w => hybridPedPairs hv N 1 (wayCategory w) s (pairsOf w.nodes))
          (g, m) = (g', m') ∧ emapFrom m' I
  | [], g, m, g', m', _, hm, h => by
    simp [buildWays] at h
    exact ⟨by simp [h.1, h.2], h.2 ▸ hm⟩
  | w :: rest, g, m, g', m', hws, hm, h => by
    rcases hs : buildPairs hv N (wayCategory w) (g, m) (pairsOf w.nodes) with e | ⟨g1, m1⟩
    · simp [buildWays, hs] at h
    · rw [buildWays, hs] at h
      have hstep := hybridPed_eq_buildPairs hnc (pairsOf w.nodes) g m g1 m1
        (fun p hp => hws w (by simp) p hp) hm hs
      have hrest := hybridWays_eq_buildWays hnc rest g1 m1 g' m'
        (fun w' hw' p hp => hws w' (by simp [hw']) p hp) hstep.2 h
      refine ⟨?_, hrest.2⟩
      rw [List.foldl_cons, hstep.1]
      exact hrest.1

/-- **C5 counterexample.**  The hybrid builder does *not* apply the §3
rank rule: with two pedestrian ways covering the same node pair (ranked
`sidewalk` then `path`), `_build_graph` keeps `sidewalk` while
`_build_hybrid_graph` (no roads, pedestrian weight 1) keeps the
last-inserted `path`, so the two category maps differ. -/
theorem C5_counterexample :
    builtCategory hvSample [(1, (0, 0)), (2, (1, 0))]
        [⟨[1, 2], some "sidewalk", some "footway"⟩,
         ⟨[1, 2], some "path", some "path"⟩] (1, 2) = some "sidewalk" ∧
      alookup (_build_hybrid_graph hvSample [(1, (0, 0)), (2, (1, 0))]
        [⟨[1, 2], some "sidewalk", some "footway"⟩,
         ⟨[1, 2], some "path", some "path"⟩] [] 1 3).2 (1, 2) = some "path" := by
  constructor <;>
    norm_num [builtCategory, _build_graph, buildWays, buildPairs,
      _build_hybrid_graph, hybridPedPairs, hybridRoadPairs, hvSample, alookup,
      addEdge, appendAdj, emapSet, ekey, wayCategory, pairsOf, type_rank]

/-- **C5 (amended).**  With no road ways and pedestrian weight 1.0, the
hybrid builder produces exactly the graph of `_build_graph`, and also the
same edge-category map *provided* no unordered node pair receives two
different categories; in general the hybrid builder resolves pedestrian
category conflicts last-write-wins instead of by the §3 rank rule (see the
counterexample). -/
theorem C5_hybrid_matches_build_graph
    (hv : ℚ → ℚ → ℚ → ℚ → ℚ) (N : NodeTable) (ways : List Way) (rw : ℚ)
    (g : Graph) (m : EMap)
    (h : _build_graph hv N ways = .ok (g, m)) (hnc : noConflict ways) :
    _build_hybrid_graph hv N ways [] 1 rw = (g, m) := by
  have hsub : ∀ w ∈ ways, ∀ p ∈ pairsOf w.nodes,
      (ekey p.1 p.2, wayCategory w) ∈ allInserts ways := by
    intro w hw p hp
    rw [allInserts]
    exact List.mem_flatMap.2 ⟨w, hw, List.mem_map.2 ⟨p, hp, rfl⟩⟩
  have hmain := hybridWays_eq_buildWays (I := allInserts ways) hnc ways [] [] g m
    hsub (by intro k c hc; simp [alookup] at hc) h
  simp only [_build_hybrid_graph, List.foldl_nil]
  exact hmain.1

/-- Witness for C5 on a conflict-free single way. -/
theorem C5_witness :
    _build_hybrid_graph hvSample [(1, (0, 0)), (2, (3, 4))]
        [⟨[1, 2], some "foot_path", some "footway"⟩] [] 1 3 =
      ([(1, [(2, 7)]), (2, [(1, 7)])], [((1, 2), "foot_path")]) :=
  C5_hybrid_matches_build_graph hvSample [(1, (0, 0)), (2, (3, 4))]
    [⟨[1, 2], some "foot_path", some "footway"⟩] 3
    [(1, [(2, 7)]), (2, [(1, 7)])] [((1, 2), "foot_path")]
    (by norm_num [_build_graph, buildWays, buildPairs, hvSample, alookup,
      addEdge, appendAdj, emapSet, ekey, wayCategory, pairsOf])
    (by decide)

end RailNav

/-! ## Dijkstra machinery: heap, chain and lookup lemmas -/

namespace RailNav

theorem heapLe_le_fst {a b : ℚ × ℤ} (h : heapLe a b) : a.1 ≤ b.1 := by
  rcases h with h | ⟨h, -⟩
  · exact le_of_lt h
  · exact le_of_eq h

theorem minEntry_eq_none {l : List (ℚ × ℤ)} (h : minEntry l = none) : l = [] := by
  cases l with
  | nil => rfl
  | cons x xs => simp [minEntry] at h

theorem minEntry_mem : ∀ {l : List (ℚ × ℤ)} {m : ℚ × ℤ}, minEntry l = some m → m ∈ l
  | [], m, h => by simp [minEntry] at h
  | x :: xs, m, h => by
    rcases hxs : minEntry xs with _ | m'
    · simp only [minEntry, hxs, Option.some.injEq] at h
      simp [← h]
    · simp only [minEntry, hxs, Option.some.injEq] at h
      by_cases hle : heapLe x m'
      · rw [if_pos hle] at h
        simp [← h]
      · rw [if_neg hle] at h
        exact List.mem_cons_of_mem x (h ▸ minEntry_mem hxs)

theorem minEntry_min : ∀ {l : List (ℚ × ℤ)} {m : ℚ × ℤ}, minEntry l = some m →
    ∀ x ∈ l, m.1 ≤ x.1
  | [], m, h => by simp [minEntry] at h
  | x :: xs, m, h => by
    rcases hxs : minEntry xs with _ | m'
    · simp only [minEntry, hxs, Option.some.injEq] at h
      obtain rfl := minEntry_eq_none hxs
      intro y hy
      simp only [List.mem_singleton] at hy
      rw [hy, ← h]
    · simp only [minEntry, hxs, Option.some.injEq] at h
      intro y hy
      rcases List.mem_cons.1 hy with hxy | hy
      · rw [hxy]
        by_cases hle : heapLe x m'
        · rw [if_pos hle] at h
          rw [← h]
        · rw [if_neg hle] at h
          rw [← h]
          unfold heapLe at hle
          push_neg at hle
          exact hle.1
      · by_cases hle : heapLe x m'
        · rw [if_pos hle] at h
          rw [← h]
          exact le_trans (heapLe_le_fst hle) (minEntry_min hxs y hy)
        · rw [if_neg hle] at h
          rw [← h]
          exact minEntry_min hxs y hy

theorem popMin_none {h : List (ℚ × ℤ)} (hp : popMin h = none) : h = [] := by
  unfold popMin at hp
  rcases hm : minEntry h with _ | m
  · exact minEntry_eq_none hm
  · rw [hm] at hp
    simp at hp

theorem popMin_some {h : List (ℚ × ℤ)} {m : ℚ × ℤ} {h' : List (ℚ × ℤ)}
    (hp : popMin h = some (m, h')) :
    m ∈ h ∧ h' = h.erase m ∧ ∀ x ∈ h, m.1 ≤ x.1 := by
  unfold popMin at hp
  rcases hm : minEntry h with _ | m0
  · rw [hm] at hp
    simp at hp
  · rw [hm] at hp
    simp only [Option.some.injEq, Prod.mk.injEq] at hp
    obtain ⟨rfl, rfl⟩ := hp
    exact ⟨minEntry_mem hm, rfl, minEntry_min hm⟩

theorem chain_head {prev : ℤ → Option (Option ℤ)} {v : ℤ} {l : List ℤ}
    (h : Chain prev v l) : ∃ t, l = v :: t := by
  cases h with
  | base h => exact ⟨[], rfl⟩
  | cons h hc => exact ⟨_, rfl⟩

theorem chain_congr {prev prev' : ℤ → Option (Option ℤ)} :
    ∀ {v : ℤ} {l : List ℤ}, Chain prev v l → (∀ x ∈ l, prev' x = prev x) →
      Chain prev' v l := by
  intro v l hc
  induction hc with
  | base h =>
    intro hagree
    exact Chain.base ((hagree _ (by simp)).trans h)
  | cons h hc ih =>
    intro hagree
    exact Chain.cons ((hagree _ (by simp)).trans h)
      (ih fun x hx => hagree x (List.mem_cons_of_mem _ hx))

theorem chainFuel_of_base {prev : ℤ → Option (Option ℤ)} {v : ℤ}
    (h : prev v = some none) : ∀ f, chainFuel prev f v = [v]
  | 0 => rfl
  | f + 1 => by simp [chainFuel, h]

theorem chainFuel_eq_chain {prev : ℤ → Option (Option ℤ)} {v : ℤ} {l : List ℤ}
    (hc : Chain prev v l) : ∀ f : Nat, l.length ≤ f + 1 → chainFuel prev f v = l := by
  induction hc with
  | base h =>
    intro f _
    exact chainFuel_of_base h f
  | cons h hc ih =>
    intro f hf
    cases f with
    | zero =>
      obtain ⟨t, rfl⟩ := chain_head hc
      simp at hf
    | succ f' =>
      simp only [chainFuel, h]
      rw [ih f' (by simpa using Nat.le_of_succ_le_succ hf)]

theorem tail_length_le {l : List ℤ} {visited : Finset ℤ} (hnd : l.Nodup)
    (hsub : ∀ x ∈ l.tail, x ∈ visited) : l.length ≤ visited.card + 1 := by
  cases l with
  | nil => simp
  | cons a t =>
    simp only [List.length_cons]
    have hndt : t.Nodup := (List.nodup_cons.1 hnd).2
    have hts : t.toFinset ⊆ visited := fun x hx =>
      hsub x (by simpa using List.mem_toFinset.1 hx)
    have hle := Finset.card_le_card hts
    rw [List.toFinset_card_of_nodup hndt] at hle
    omega

theorem alookup_mem {κ α : Type} [DecidableEq κ] :
    ∀ {l : List (κ × α)} {k : κ} {a : α}, alookup l k = some a → (k, a) ∈ l
  | [], k, a, h => by simp [alookup] at h
  | (k0, a0) :: rest, k, a, h => by
    by_cases hk : k = k0
    · subst hk
      simp [alookup] at h
      simp [h]
    · simp [alookup, hk] at h
      exact List.mem_cons_of_mem _ (alookup_mem h)

theorem nonneg_adjOf {g : Graph} (hw : NonnegWeights g) :
    ∀ u : ℤ, ∀ e ∈ adjOf g u, 0 ≤ e.2 := by
  intro u e he
  unfold adjOf at he
  rcases hl : alookup g u with _ | l
  · rw [hl] at he
    simp at he
  · rw [hl] at he
    simp only [Option.getD_some] at he
    exact hw (u, l) (alookup_mem hl) e he

end RailNav

/-! ## Dijkstra machinery: relaxation -/

namespace RailNav

theorem improves_some {s : DState} {nd : ℚ} {v : ℤ} {dv : ℚ}
    (hd : s.dist v = some dv) : improves s nd v = decide (nd < dv) := by
  rw [improves, hd]

theorem improves_none {s : DState} {nd : ℚ} {v : ℤ}
    (hd : s.dist v = none) : improves s nd v = true := by
  rw [improves, hd]

theorem relaxUpd_dist (d : ℚ) (u : ℤ) (s : DState) (e : ℤ × ℚ) (n : ℤ) :
    (relaxUpd d u s e).dist n = if n = e.1 then some (d + e.2) else s.dist n := rfl

theorem relaxUpd_prev (d : ℚ) (u : ℤ) (s : DState) (e : ℤ × ℚ) (n : ℤ) :
    (relaxUpd d u s e).prev n = if n = e.1 then some (some u) else s.prev n := rfl

theorem relaxUpd_heap (d : ℚ) (u : ℤ) (s : DState) (e : ℤ × ℚ) :
    (relaxUpd d u s e).heap = s.heap ++ [(d + e.2, e.1)] := rfl

theorem relaxUpd_visited (d : ℚ) (u : ℤ) (s : DState) (e : ℤ × ℚ) :
    (relaxUpd d u s e).visited = s.visited := rfl

/-- Everything `relaxOne` preserves and establishes, in one bundle. -/
theorem relaxOne_spec {g : Graph} {start : ℤ} {d : ℚ} {u : ℤ} {s : DState}
    (hcore : DCore g start s)
    (hrelOld : ∀ u' ∈ s.visited, u' ≠ u → RelaxedAt g s u')
    (hu : u ∈ s.visited) (hdu : s.dist u = some d)
    (hvd : ∀ v ∈ s.visited, ∃ dv, s.dist v = some dv ∧ dv ≤ d)
    (hd0 : 0 ≤ d) (e : ℤ × ℚ) (he : e ∈ adjOf g u) (he2 : 0 ≤ e.2) :
    DCore g start (relaxOne d u s e) ∧
      (∀ u' ∈ (relaxOne d u s e).visited, u' ≠ u →
        RelaxedAt g (relaxOne d u s e) u') ∧
      (relaxOne d u s e).visited = s.visited ∧
      (relaxOne d u s e).dist u = some d ∧
      (∀ n x, s.dist n = some x →
        ∃ y, (relaxOne d u s e).dist n = some y ∧ y ≤ x) ∧
      (∃ dz, (relaxOne d u s e).dist e.1 = some dz ∧ dz ≤ d + e.2) ∧
      (relaxOne d u s e).heap.length ≤ s.heap.length + 1 := by
  by_cases himp : improves s (d + e.2) e.1 = true
  · have hs1 : relaxOne d u s e = relaxUpd d u s e := by
      rw [relaxOne, if_pos himp]
    have hv0nv : e.1 ∉ s.visited := by
      intro hvis
      obtain ⟨dv, hdv, hdvd⟩ := hvd e.1 hvis
      rw [improves_some hdv, decide_eq_true_eq] at himp
      linarith
    have hv0start : e.1 ≠ start := by
      intro hst
      rw [hst, improves_some hcore.distStart, decide_eq_true_eq] at himp
      linarith
    have huv0 : u ≠ e.1 := fun hc => hv0nv (hc ▸ hu)
    have hold : ∀ dv, s.dist e.1 = some dv → d + e.2 < dv := by
      intro dv hdv
      rw [improves_some hdv, decide_eq_true_eq] at himp
      exact himp
    rw [hs1]
    refine ⟨?_, ?_, relaxUpd_visited .., ?_, ?_, ?_, ?_⟩
    · refine { hkeys := ?_, hdist := ?_, vless := ?_, prevEdge := ?_,
               prevStart := ?_, distStart := ?_, prevNone := ?_, domIff := ?_,
               visSome := ?_, unvisHeap := ?_, chains := ?_, lb := ?_ }
      · simp only [relaxUpd_heap]
        intro p hp
        rcases List.mem_append.1 hp with hp | hp
        · exact hcore.hkeys p hp
        · simp only [List.mem_singleton] at hp
          rw [hp]
          simpa using add_nonneg hd0 he2
      · simp only [relaxUpd_heap, relaxUpd_dist]
        intro p hp
        rcases List.mem_append.1 hp with hp | hp
        · obtain ⟨dx, hdx, hdxle⟩ := hcore.hdist p hp
          by_cases hpv : p.2 = e.1
          · refine ⟨d + e.2, by rw [if_pos hpv], ?_⟩
            have := hold dx (hpv ▸ hdx)
            linarith
          · exact ⟨dx, by rw [if_neg hpv]; exact hdx, hdxle⟩
        · simp only [List.mem_singleton] at hp
          rw [hp]
          exact ⟨d + e.2, by simp, le_refl _⟩
      · simp only [relaxUpd_heap, relaxUpd_dist, relaxUpd_visited]
        intro v hv
        have hvne : v ≠ e.1 := fun hc => hv0nv (hc ▸ hv)
        obtain ⟨dv, hdv, hdvh⟩ := hcore.vless v hv
        obtain ⟨dv', hdv', hdvd'⟩ := hvd v hv
        rw [hdv] at hdv'
        obtain rfl : dv = dv' := Option.some.injEq .. ▸ hdv'
        refine ⟨dv, by rw [if_neg hvne]; exact hdv, ?_⟩
        intro p hp
        rcases List.mem_append.1 hp with hp | hp
        · exact hdvh p hp
        · simp only [List.mem_singleton] at hp
          rw [hp]
          simp only
          linarith
      · simp only [relaxUpd_prev, relaxUpd_dist, relaxUpd_visited]
        intro v u' hpv
        by_cases hve : v = e.1
        · rw [if_pos hve] at hpv
          have hu'u : u = u' := by
            have h1 := Option.some.injEq .. ▸ hpv
            exact Option.some.injEq .. ▸ h1
          subst hu'u
          refine ⟨hu, e.2, d, d + e.2, ?_, by rw [if_neg huv0]; exact hdu,
            by rw [if_pos hve], rfl⟩
          rw [hve]
          simpa using he
        · rw [if_neg hve] at hpv
          obtain ⟨hu', w, du, dv, hedge, hdu', hdv, hsum⟩ := hcore.prevEdge v u' hpv
          have hu'ne : u' ≠ e.1 := fun hc => hv0nv (hc ▸ hu')
          exact ⟨hu', w, du, dv, hedge, by rw [if_neg hu'ne]; exact hdu',
            by rw [if_neg hve]; exact hdv, hsum⟩
      · simp only [relaxUpd_prev]
        rw [if_neg (Ne.symm hv0start)]
        exact hcore.prevStart
      · simp only [relaxUpd_dist]
        rw [if_neg (Ne.symm hv0start)]
        exact hcore.distStart
      · simp only [relaxUpd_prev]
        intro v hpv
        by_cases hve : v = e.1
        · rw [if_pos hve] at hpv
          exact absurd (Option.some.injEq .. ▸ hpv) (by simp)
        · rw [if_neg hve] at hpv
          exact hcore.prevNone v hpv
      · simp only [relaxUpd_prev, relaxUpd_dist]
        intro v
        by_cases hve : v = e.1
        · rw [if_pos hve, if_pos hve]
          simp
        · rw [if_neg hve, if_neg hve]
          exact hcore.domIff v
      · simp only [relaxUpd_dist, relaxUpd_visited]
        intro v hv
        have hvne : v ≠ e.1 := fun hc => hv0nv (hc ▸ hv)
        rw [if_neg hvne]
        exact hcore.visSome v hv
      · simp only [relaxUpd_dist, relaxUpd_heap, relaxUpd_visited]
        intro z dz hz hdz
        by_cases hze : z = e.1
        · rw [if_pos hze] at hdz
          have : d + e.2 = dz := Option.some.injEq .. ▸ hdz
          rw [hze, ← this]
          exact List.mem_append.2 (Or.inr (by simp))
        · rw [if_neg hze] at hdz
          exact List.mem_append.2 (Or.inl (hcore.unvisHeap z dz hz hdz))
      · simp only [relaxUpd_prev, relaxUpd_visited]
        intro v hpv
        by_cases hve : v = e.1
        · obtain ⟨lu, hlu, hnd, hlast, htail⟩ := hcore.chains u
            (by rw [← hcore.domIff]; exact hcore.visSome u hu)
          obtain ⟨t, hteq⟩ := chain_head hlu
          have hallvis : ∀ x ∈ lu, x ∈ s.visited := by
            intro x hx
            rw [hteq] at hx
            rcases List.mem_cons.1 hx with hxx | hxx
            · rw [hxx]
              exact hu
            · exact htail x (by rw [hteq]; exact hxx)
          have hne1 : e.1 ∉ lu := fun hc => hv0nv (hallvis _ hc)
          refine ⟨v :: lu, ?_, ?_, ?_, ?_⟩
          · refine Chain.cons (show (if v = e.1 then some (some u) else s.prev v) =
              some (some u) by rw [if_pos hve]) ?_
            refine chain_congr hlu ?_
            intro x hx
            rw [relaxUpd_prev, if_neg (fun hc => hne1 (by rw [← hc]; exact hx))]
          · refine List.nodup_cons.2 ⟨fun hc => ?_, hnd⟩
            exact hne1 (hve ▸ hc)
          · rw [hteq, List.getLast?_cons_cons]
            rw [hteq] at hlast
            exact hlast
          · intro x hx
            simp only [List.tail_cons] at hx
            exact hallvis x hx
        · rw [if_neg hve] at hpv
          obtain ⟨lv, hlv, hnd, hlast, htail⟩ := hcore.chains v hpv
          have hne1 : e.1 ∉ lv := by
            intro hc
            obtain ⟨t, hteq⟩ := chain_head hlv
            rw [hteq] at hc
            rcases List.mem_cons.1 hc with hxx | hxx
            · exact hve hxx.symm
            · exact hv0nv (htail _ (by rw [hteq]; exact hxx))
          refine ⟨lv, ?_, hnd, hlast, htail⟩
          refine chain_congr hlv ?_
          intro x hx
          rw [relaxUpd_prev, if_neg (fun hc => hne1 (by rw [← hc]; exact hx))]
      · simp only [relaxUpd_dist, relaxUpd_visited]
        intro v hv dv hdv c hwalk
        have hvne : v ≠ e.1 := fun hc => hv0nv (hc ▸ hv)
        rw [if_neg hvne] at hdv
        exact hcore.lb v hv dv hdv c hwalk
    · simp only [relaxUpd_dist, relaxUpd_visited]
      intro u' hu' hne e' he'
      have hu'ne : u' ≠ e.1 := fun hc => hv0nv (hc ▸ hu')
      obtain ⟨du', dz, hdu'', hdz, hdzle⟩ := hrelOld u' hu' hne e' he'
      by_cases hze : e'.1 = e.1
      · have hlt := hold dz (hze ▸ hdz)
        exact ⟨du', d + e.2, by rw [relaxUpd_dist, if_neg hu'ne]; exact hdu'',
          by rw [relaxUpd_dist, if_pos hze], by linarith⟩
      · exact ⟨du', dz, by rw [relaxUpd_dist, if_neg hu'ne]; exact hdu'',
          by rw [relaxUpd_dist, if_neg hze]; exact hdz, hdzle⟩
    · simp only [relaxUpd_dist]
      rw [if_neg huv0]
      exact hdu
    · simp only [relaxUpd_dist]
      intro n x hnx
      by_cases hne : n = e.1
      · have hlt := hold x (hne ▸ hnx)
        exact ⟨d + e.2, by rw [if_pos hne], le_of_lt hlt⟩
      · exact ⟨x, by rw [if_neg hne]; exact hnx, le_refl x⟩
    · simp only [relaxUpd_dist]
      exact ⟨d + e.2, by simp, le_refl _⟩
    · simp only [relaxUpd_heap]
      simp
  · have hs1 : relaxOne d u s e = s := by
      rw [relaxOne, if_neg himp]
    rw [hs1]
    refine ⟨hcore, fun u' hu' hne => hrelOld u' hu' hne, rfl, hdu,
      fun n x hnx => ⟨x, hnx, le_refl x⟩, ?_, by simp⟩
    rcases hdz : s.dist e.1 with _ | dz
    · rw [improves_none hdz] at himp
      exact absurd rfl himp
    · rw [improves_some hdz, decide_eq_true_eq] at himp
      push_neg at himp
      exact ⟨dz, rfl, himp⟩

end RailNav

/-! ## Dijkstra machinery: the relaxation fold -/

namespace RailNav

/-- Folding `relaxOne` over adjacency records of the freshly visited `u`. -/
theorem relaxList_spec {g : Graph} {start : ℤ} {d : ℚ} {u : ℤ}
    (hw : ∀ u' : ℤ, ∀ e ∈ adjOf g u', 0 ≤ e.2) (hd0 : 0 ≤ d) :
    ∀ (es : List (ℤ × ℚ)) (s : DState), (∀ e ∈ es, e ∈ adjOf g u) →
      DCore g start s →
      (∀ u' ∈ s.visited, u' ≠ u → RelaxedAt g s u') →
      u ∈ s.visited → s.dist u = some d →
      (∀ v ∈ s.visited, ∃ dv, s.dist v = some dv ∧ dv ≤ d) →
      DCore g start (es.foldl (relaxOne d u) s) ∧
        (∀ u' ∈ (es.foldl (relaxOne d u) s).visited, u' ≠ u →
          RelaxedAt g (es.foldl (relaxOne d u) s) u') ∧
        (es.foldl (relaxOne d u) s).visited = s.visited ∧
        (es.foldl (relaxOne d u) s).dist u = some d ∧
        (∀ e ∈ es, ∃ dz, (es.foldl (relaxOne d u) s).dist e.1 = some dz ∧
          dz ≤ d + e.2) ∧
        (∀ n x, s.dist n = some x →
          ∃ y, (es.foldl (relaxOne d u) s).dist n = some y ∧ y ≤ x) ∧
        (es.foldl (relaxOne d u) s).heap.length ≤ s.heap.length + es.length
  | [], s, hsub, hcore, hrel, hu, hdu, hvd => by
    simp only [List.foldl_nil]
    exact ⟨hcore, hrel, by trivial, hdu, by simp,
      fun n x hx => ⟨x, hx, le_refl x⟩, by simp⟩
  | e :: rest, s, hsub, hcore, hrel, hu, hdu, hvd => by
    obtain ⟨hcore1, hrel1, hvis1, hdu1, hmono1, ⟨dz0, hdz0, hdz0le⟩, hlen1⟩ :=
      relaxOne_spec hcore hrel hu hdu hvd hd0 e (hsub e (by simp))
        (hw u e (hsub e (by simp)))
    have hvd1 : ∀ v ∈ (relaxOne d u s e).visited,
        ∃ dv, (relaxOne d u s e).dist v = some dv ∧ dv ≤ d := by
      intro v hv
      rw [hvis1] at hv
      obtain ⟨dv, hdv, hdvle⟩ := hvd v hv
      obtain ⟨y, hy, hyle⟩ := hmono1 v dv hdv
      exact ⟨y, hy, le_trans hyle hdvle⟩
    obtain ⟨hcoreR, hrelR, hvisR, hduR, hcondR, hmonoR, hlenR⟩ :=
      relaxList_spec hw hd0 rest (relaxOne d u s e)
        (fun e' he' => hsub e' (by simp [he']))
        hcore1 hrel1 (by rw [hvis1]; exact hu) hdu1 hvd1
    simp only [List.foldl_cons]
    refine ⟨hcoreR, hrelR, hvisR.trans hvis1, hduR, ?_, ?_, ?_⟩
    · intro e' he'
      rcases List.mem_cons.1 he' with he' | he'
      · obtain ⟨y, hy, hyle⟩ := hmonoR e.1 dz0 hdz0
        rw [he']
        exact ⟨y, hy, le_trans hyle hdz0le⟩
      · exact hcondR e' he'
    · intro n x hx
      obtain ⟨y1, hy1, hy1le⟩ := hmono1 n x hx
      obtain ⟨y2, hy2, hy2le⟩ := hmonoR n y1 hy1
      exact ⟨y2, hy2, le_trans hy2le hy1le⟩
    · calc (rest.foldl (relaxOne d u) (relaxOne d u s e)).heap.length
          ≤ (relaxOne d u s e).heap.length + rest.length := hlenR
        _ ≤ s.heap.length + 1 + rest.length := by omega
        _ = s.heap.length + (e :: rest).length := by simp [List.length_cons]; omega

end RailNav

/-! ## Dijkstra machinery: frontier cut, measure, and state transfer -/

namespace RailNav

/-- The frontier-cut bound: with `d0` below every heap key and above every
visited distance, any walk from `start` costs at least the distance of its
visited endpoint, and at least `d0` when the endpoint is unvisited. -/
theorem walk_cut {g : Graph} {start : ℤ} {s : DState} {d0 : ℚ}
    (hw : ∀ u' : ℤ, ∀ e ∈ adjOf g u', 0 ≤ e.2)
    (hcore : DCore g start s)
    (hrel : ∀ u' ∈ s.visited, RelaxedAt g s u')
    (hmin : ∀ p ∈ s.heap, d0 ≤ p.1)
    (hvd0 : ∀ v ∈ s.visited, ∀ dv, s.dist v = some dv → dv ≤ d0) :
    ∀ z c, CostedWalk g start z c →
      (z ∈ s.visited → ∀ dz, s.dist z = some dz → dz ≤ c) ∧
      (z ∉ s.visited → d0 ≤ c) := by
  intro z c hwalk
  induction hwalk with
  | refl =>
    constructor
    · intro _ dz hdz
      rw [hcore.distStart] at hdz
      have : (0 : ℚ) = dz := Option.some.injEq .. ▸ hdz
      rw [← this]
    · intro hnv
      have hmem := hcore.unvisHeap start 0 hnv hcore.distStart
      simpa using hmin (0, start) hmem
  | step hwalk' hedge ih =>
    rename_i y z0 c' w
    have hw0 : 0 ≤ w := hw y (z0, w) hedge
    by_cases hy : y ∈ s.visited
    · obtain ⟨du, dz', hdu, hdz', hdzle⟩ := hrel y hy (z0, w) hedge
      have hduc : du ≤ c' := ih.1 hy du hdu
      constructor
      · intro _ dz hdz
        rw [hdz'] at hdz
        have : dz' = dz := Option.some.injEq .. ▸ hdz
        rw [← this]
        linarith
      · intro hnv
        have hmem := hcore.unvisHeap z0 dz' hnv hdz'
        have := hmin (dz', z0) hmem
        simp only at this
        linarith
    · have hd0c : d0 ≤ c' := ih.2 hy
      constructor
      · intro hz dz hdz
        have := hvd0 z0 hz dz hdz
        linarith
      · intro _
        linarith

theorem unvisSum_mono {g : Graph} {v1 v2 : Finset ℤ} (hsub : v1 ⊆ v2) :
    unvisSum g v2 ≤ unvisSum g v1 := by
  induction g with
  | nil => simp [unvisSum]
  | cons hd tl ih =>
    obtain ⟨k, l⟩ := hd
    by_cases h2 : k ∈ v2
    · have hcase : unvisSum ((k, l) :: tl) v2 = unvisSum tl v2 := by
        simp [unvisSum, List.filter_cons, h2]
      rw [hcase]
      by_cases h1 : k ∈ v1
      · have : unvisSum ((k, l) :: tl) v1 = unvisSum tl v1 := by
          simp [unvisSum, List.filter_cons, h1]
        rw [this]
        exact ih
      · have : unvisSum ((k, l) :: tl) v1 = l.length + unvisSum tl v1 := by
          simp [unvisSum, List.filter_cons, h1]
        rw [this]
        omega
    · have h1 : k ∉ v1 := fun hc => h2 (hsub hc)
      have hc2 : unvisSum ((k, l) :: tl) v2 = l.length + unvisSum tl v2 := by
        simp [unvisSum, List.filter_cons, h2]
      have hc1 : unvisSum ((k, l) :: tl) v1 = l.length + unvisSum tl v1 := by
        simp [unvisSum, List.filter_cons, h1]
      rw [hc1, hc2]
      have := ih
      omega

theorem unvisSum_insert {g : Graph} {visited : Finset ℤ} {u : ℤ}
    (hu : u ∉ visited) :
    unvisSum g (insert u visited) + (adjOf g u).length ≤ unvisSum g visited := by
  induction g with
  | nil => simp [unvisSum, adjOf, alookup]
  | cons hd tl ih =>
    obtain ⟨k, l⟩ := hd
    by_cases hk : k = u
    · subst hk
      have hold : unvisSum ((k, l) :: tl) visited = l.length + unvisSum tl visited := by
        simp [unvisSum, List.filter_cons, hu]
      have hnew : unvisSum ((k, l) :: tl) (insert k visited) =
          unvisSum tl (insert k visited) := by
        simp [unvisSum, List.filter_cons]
      have hadj : adjOf ((k, l) :: tl) k = l := by
        simp [adjOf, alookup]
      rw [hold, hnew, hadj]
      have hmono := unvisSum_mono (g := tl)
        (Finset.subset_insert k visited)
      omega
    · have hadj : adjOf ((k, l) :: tl) u = adjOf tl u := by
        simp [adjOf, alookup, Ne.symm hk]
      rw [hadj]
      by_cases hkv : k ∈ visited
      · have hold : unvisSum ((k, l) :: tl) visited = unvisSum tl visited := by
          simp [unvisSum, List.filter_cons, hkv]
        have hnew : unvisSum ((k, l) :: tl) (insert u visited) =
            unvisSum tl (insert u visited) := by
          simp [unvisSum, List.filter_cons, hkv]
        rw [hold, hnew]
        exact ih
      · have hkv' : k ∉ insert u visited := by
          simp [Finset.mem_insert, hk, hkv]
        have hold : unvisSum ((k, l) :: tl) visited = l.length + unvisSum tl visited := by
          simp [unvisSum, List.filter_cons, hkv]
        have hnew : unvisSum ((k, l) :: tl) (insert u visited) =
            l.length + unvisSum tl (insert u visited) := by
          simp [unvisSum, List.filter_cons, hk, hkv]
        rw [hold, hnew]
        omega

/-- `DCore` transfer to a state with a smaller heap (skipping a stale
entry of an already-visited node). -/
theorem dcore_set_heap {g : Graph} {start : ℤ} {s : DState}
    {h' : List (ℚ × ℤ)} (hcore : DCore g start s)
    (hsub : ∀ p ∈ h', p ∈ s.heap)
    (hunv : ∀ z dz, z ∉ s.visited → s.dist z = some dz → (dz, z) ∈ h') :
    DCore g start { s with heap := h' } :=
  { hkeys := fun p hp => hcore.hkeys p (hsub p hp)
    hdist := fun p hp => hcore.hdist p (hsub p hp)
    vless := fun v hv => by
      obtain ⟨dv, h1, h2⟩ := hcore.vless v hv
      exact ⟨dv, h1, fun p hp => h2 p (hsub p hp)⟩
    prevEdge := hcore.prevEdge
    prevStart := hcore.prevStart
    distStart := hcore.distStart
    prevNone := hcore.prevNone
    domIff := hcore.domIff
    visSome := hcore.visSome
    unvisHeap := hunv
    chains := hcore.chains
    lb := hcore.lb }

/-- `DCore` transfer to the state that marks the popped node `u` (with
exact distance `d`) as visited. -/
theorem dcore_visit {g : Graph} {start : ℤ} {s : DState} {u : ℤ} {d : ℚ}
    {h' : List (ℚ × ℤ)} (hcore : DCore g start s) (hvis : u ∉ s.visited)
    (hd : s.dist u = some d) (hminh : ∀ p ∈ h', d ≤ p.1)
    (hsub : ∀ p ∈ h', p ∈ s.heap)
    (hunv : ∀ z dz, z ∉ s.visited → z ≠ u → s.dist z = some dz → (dz, z) ∈ h')
    (hlbu : ∀ c, CostedWalk g start u c → d ≤ c) :
    DCore g start { s with heap := h', visited := insert u s.visited } :=
  { hkeys := fun p hp => hcore.hkeys p (hsub p hp)
    hdist := fun p hp => hcore.hdist p (hsub p hp)
    vless := by
      intro v hv
      rcases Finset.mem_insert.1 hv with rfl | hv
      · exact ⟨d, hd, hminh⟩
      · obtain ⟨dv, h1, h2⟩ := hcore.vless v hv
        exact ⟨dv, h1, fun p hp => h2 p (hsub p hp)⟩
    prevEdge := by
      intro v u' hp
      obtain ⟨h1, rest⟩ := hcore.prevEdge v u' hp
      exact ⟨Finset.mem_insert_of_mem h1, rest⟩
    prevStart := hcore.prevStart
    distStart := hcore.distStart
    prevNone := hcore.prevNone
    domIff := hcore.domIff
    visSome := by
      intro v hv
      rcases Finset.mem_insert.1 hv with rfl | hv
      · rw [hd]
        rfl
      · exact hcore.visSome v hv
    unvisHeap := by
      intro z dz hz hdz
      rw [Finset.mem_insert, not_or] at hz
      exact hunv z dz hz.2 hz.1 hdz
    chains := by
      intro v hp
      obtain ⟨l, hl, hnd, hlast, htail⟩ := hcore.chains v hp
      exact ⟨l, hl, hnd, hlast, fun x hx => Finset.mem_insert_of_mem (htail x hx)⟩
    lb := by
      intro v hv dv hdv c hwalk
      rcases Finset.mem_insert.1 hv with rfl | hv
      · rw [hd] at hdv
        have : d = dv := Option.some.injEq .. ▸ hdv
        rw [← this]
        exact hlbu c hwalk
      · exact hcore.lb v hv dv hdv c hwalk }

end RailNav

/-! ## Dijkstra machinery: the main loop -/

namespace RailNav

theorem dloop_spec {g : Graph} {start goal : ℤ}
    (hw : ∀ u' : ℤ, ∀ e ∈ adjOf g u', 0 ≤ e.2) :
    ∀ (fuel : Nat) (s : DState), DCore g start s →
      (∀ u' ∈ s.visited, RelaxedAt g s u') →
      goal ∉ s.visited → phi g s < fuel →
      ∃ s', dloop g goal fuel s = some s' ∧ DCore g start s' ∧
        (∀ u' ∈ s'.visited, u' ≠ goal → RelaxedAt g s' u') ∧
        ((s'.heap = [] ∧ goal ∉ s'.visited ∧
            ∀ u' ∈ s'.visited, RelaxedAt g s' u') ∨ goal ∈ s'.visited)
  | 0, s, _, _, _, hphi => absurd hphi (by omega)
  | fuel + 1, s, hcore, hrel, hgoal, hphi => by
    rcases hpop : popMin s.heap with _ | ⟨⟨d, u⟩, h'⟩
    · refine ⟨s, ?_, hcore, fun u' hu' _ => hrel u' hu',
        Or.inl ⟨popMin_none hpop, hgoal, hrel⟩⟩
      simp only [dloop, hpop]
    · obtain ⟨hmem, hh', hmin⟩ := popMin_some hpop
      have hmind : ∀ p ∈ s.heap, d ≤ p.1 := fun p hp => hmin p hp
      have hminh : ∀ p ∈ h', d ≤ p.1 := by
        intro p hp
        rw [hh'] at hp
        exact hmind p (List.erase_subset _ _ hp)
      have hsub : ∀ p ∈ h', p ∈ s.heap := by
        intro p hp
        rw [hh'] at hp
        exact List.erase_subset _ _ hp
      have hlen0 : s.heap.length ≠ 0 := by
        intro hc
        rw [List.length_eq_zero] at hc
        rw [hc] at hmem
        simp at hmem
      have hlenh' : h'.length = s.heap.length - 1 := by
        rw [hh']
        exact List.length_erase_of_mem hmem
      by_cases hvis : u ∈ s.visited
      · have hunv : ∀ z dz, z ∉ s.visited → s.dist z = some dz → (dz, z) ∈ h' := by
          intro z dz hz hdz
          have hmem2 := hcore.unvisHeap z dz hz hdz
          have hne : (dz, z) ≠ (d, u) := by
            intro hc
            obtain ⟨-, h2⟩ := Prod.mk.injEq .. ▸ hc
            exact hz (h2 ▸ hvis)
          rw [hh']
          exact (List.mem_erase_of_ne hne).2 hmem2
        have hcore2 := dcore_set_heap hcore hsub hunv
        have hrel2 : ∀ u' ∈ ({ s with heap := h' } : DState).visited,
            RelaxedAt g { s with heap := h' } u' := hrel
        have hphi2 : phi g { s with heap := h' } < fuel := by
          have h1 : phi g { s with heap := h' } =
              h'.length + unvisSum g s.visited := rfl
          have h2 : phi g s = s.heap.length + unvisSum g s.visited := rfl
          omega
        obtain ⟨s', hs', hcore', hrel', hexit'⟩ :=
          dloop_spec hw fuel { s with heap := h' } hcore2 hrel2 hgoal hphi2
        refine ⟨s', ?_, hcore', hrel', hexit'⟩
        simp only [dloop, hpop]
        rw [if_pos hvis]
        exact hs'
      · obtain ⟨du, hdu0, hdule⟩ := hcore.hdist (d, u) hmem
        have hdueq : du = d := by
          have hmem2 := hcore.unvisHeap u du hvis hdu0
          have := hmind (du, u) hmem2
          simp only at this hdule
          linarith
        subst hdueq
        have hd0 : 0 ≤ du := by
          have := hcore.hkeys (du, u) hmem
          simpa using this
        have hvd : ∀ v ∈ s.visited, ∃ dv, s.dist v = some dv ∧ dv ≤ du := by
          intro v hv
          obtain ⟨dv, hdv, hall⟩ := hcore.vless v hv
          refine ⟨dv, hdv, ?_⟩
          have := hall (du, u) hmem
          simpa using this
        have hunv : ∀ z dz, z ∉ s.visited → z ≠ u →
            s.dist z = some dz → (dz, z) ∈ h' := by
          intro z dz hz hzu hdz
          have hmem2 := hcore.unvisHeap z dz hz hdz
          have hne : (dz, z) ≠ (du, u) := by
            intro hc
            obtain ⟨-, h2⟩ := Prod.mk.injEq .. ▸ hc
            exact hzu h2
          rw [hh']
          exact (List.mem_erase_of_ne hne).2 hmem2
        have hvd0 : ∀ v ∈ s.visited, ∀ dv, s.dist v = some dv → dv ≤ du := by
          intro v hv dv hdv
          obtain ⟨dv', hdv', hle⟩ := hvd v hv
          rw [hdv] at hdv'
          have heq : dv = dv' := Option.some.injEq .. ▸ hdv'
          rw [heq]
          exact hle
        have hcut := walk_cut hw hcore hrel hmind hvd0
        have hlbu : ∀ c, CostedWalk g start u c → du ≤ c := by
          intro c hwalk
          exact (hcut u c hwalk).2 hvis
        have hcoreV := dcore_visit hcore hvis hdu0 hminh hsub hunv hlbu
        have hrelV : ∀ u' ∈ ({ s with
            heap := h'
            visited := insert u s.visited } : DState).visited, u' ≠ u →
            RelaxedAt g { s with heap := h', visited := insert u s.visited } u' := by
          intro u' hu' hne
          have hu'vis : u' ∈ s.visited := by
            rcases Finset.mem_insert.1 hu' with h | h
            · exact absurd h hne
            · exact h
          exact hrel u' hu'vis
        by_cases hug : u = goal
        · refine ⟨{ s with heap := h', visited := insert u s.visited }, ?_,
            hcoreV, ?_, Or.inr (by rw [← hug]; exact Finset.mem_insert_self u s.visited)⟩
          · simp only [dloop, hpop]
            rw [if_neg hvis, if_pos hug]
          · intro u' hu' hne
            exact hrelV u' hu' (fun hc => hne (hc.trans hug))
        · have hvd1 : ∀ v ∈ ({ s with
              heap := h'
              visited := insert u s.visited } : DState).visited,
              ∃ dv, ({ s with
                heap := h'
                visited := insert u s.visited } : DState).dist v = some dv ∧
                dv ≤ du := by
            intro v hv
            rcases Finset.mem_insert.1 hv with rfl | hv
            · exact ⟨du, hdu0, le_refl du⟩
            · exact hvd v hv
          obtain ⟨hcoreR, hrelR, hvisR, hduR, hcondR, hmonoR, hlenR⟩ :=
            relaxList_spec (u := u) hw hd0 (adjOf g u)
              { s with heap := h', visited := insert u s.visited }
              (fun e he => he) hcoreV hrelV
              (Finset.mem_insert_self u s.visited) hdu0 hvd1
          have hrelFull : ∀ u' ∈ ((adjOf g u).foldl (relaxOne du u)
              { s with heap := h', visited := insert u s.visited }).visited,
              RelaxedAt g ((adjOf g u).foldl (relaxOne du u)
                { s with heap := h', visited := insert u s.visited }) u' := by
            intro u' hu'
            by_cases hne : u' = u
            · subst hne
              intro e he
              obtain ⟨dz, hdz, hdzle⟩ := hcondR e he
              exact ⟨du, dz, hduR, hdz, hdzle⟩
            · exact hrelR u' hu' hne
          have hgoal2 : goal ∉ ((adjOf g u).foldl (relaxOne du u)
              { s with heap := h', visited := insert u s.visited }).visited := by
            rw [hvisR]
            intro hc
            rcases Finset.mem_insert.1 hc with h | h
            · exact hug h.symm
            · exact hgoal h
          have hphi2 : phi g ((adjOf g u).foldl (relaxOne du u)
              { s with heap := h', visited := insert u s.visited }) < fuel := by
            have h0 : phi g s = s.heap.length + unvisSum g s.visited := rfl
            have h1 : phi g ((adjOf g u).foldl (relaxOne du u)
                { s with heap := h', visited := insert u s.visited }) =
                ((adjOf g u).foldl (relaxOne du u)
                  { s with heap := h', visited := insert u s.visited }).heap.length +
                unvisSum g ((adjOf g u).foldl (relaxOne du u)
                  { s with heap := h', visited := insert u s.visited }).visited := rfl
            have h2 := hvisR
            have h3 : (({ s with heap := h', visited := insert u s.visited } :
                DState)).heap.length = h'.length := rfl
            have h4 := hlenR
            have h6 := unvisSum_insert (g := g) hvis
            rw [h2] at h1
            rw [h3] at h4
            have h7 : ({ s with heap := h', visited := insert u s.visited } :
                DState).visited = insert u s.visited := rfl
            rw [h7] at h1
            omega
          obtain ⟨s', hs', hcore', hrel', hexit'⟩ :=
            dloop_spec hw fuel ((adjOf g u).foldl (relaxOne du u)
              { s with heap := h', visited := insert u s.visited })
              hcoreR hrelFull hgoal2 hphi2
          refine ⟨s', ?_, hcore', hrel', hexit'⟩
          simp only [dloop, hpop]
          rw [if_neg hvis, if_neg hug]
          exact hs'

end RailNav

/-! ## Dijkstra machinery: initial state and end-to-end run -/

namespace RailNav

theorem unvisSum_empty (g : Graph) :
    unvisSum g ∅ = (g.map fun p => p.2.length).sum := by
  simp [unvisSum]

theorem dinit_core (g : Graph) (start : ℤ) : DCore g start (dinit start) :=
  { hkeys := by
      intro p hp
      simp only [dinit, List.mem_singleton] at hp
      subst hp
      norm_num
    hdist := by
      intro p hp
      simp only [dinit, List.mem_singleton] at hp
      subst hp
      exact ⟨0, by simp [dinit], le_refl 0⟩
    vless := by
      intro v hv
      simp [dinit] at hv
    prevEdge := by
      intro v u' hp
      by_cases hvs : v = start <;> simp [dinit, hvs] at hp
    prevStart := by simp [dinit]
    distStart := by simp [dinit]
    prevNone := by
      intro v h
      by_cases hvs : v = start
      · exact hvs
      · simp [dinit, hvs] at h
    domIff := by
      intro v
      by_cases hvs : v = start <;> simp [dinit, hvs]
    visSome := by
      intro v hv
      simp [dinit] at hv
    unvisHeap := by
      intro z dz hz hdz
      by_cases hzs : z = start
      · subst hzs
        have h0 : some (0 : ℚ) = some dz := by simpa [dinit] using hdz
        have h1 : (0 : ℚ) = dz := Option.some.injEq .. ▸ h0
        simp [dinit, ← h1]
      · simp [dinit, hzs] at hdz
    chains := by
      intro v hp
      by_cases hvs : v = start
      · subst hvs
        exact ⟨[v], Chain.base (by simp [dinit]), by simp, by simp, by simp⟩
      · simp [dinit, hvs] at hp
    lb := by
      intro v hv
      simp [dinit] at hv }

theorem phi_dinit_lt (g : Graph) (start : ℤ) :
    phi g (dinit start) < fuelBound g := by
  have h := unvisSum_empty g
  simp only [phi, dinit, fuelBound, List.length_singleton]
  omega

theorem sp_run {g : Graph} (start goal : ℤ)
    (hw : ∀ u' : ℤ, ∀ e ∈ adjOf g u', 0 ≤ e.2) :
    ∃ s', dloop g goal (fuelBound g) (dinit start) = some s' ∧
      DCore g start s' ∧
      (∀ u' ∈ s'.visited, u' ≠ goal → RelaxedAt g s' u') ∧
      ((s'.heap = [] ∧ goal ∉ s'.visited ∧
          ∀ u' ∈ s'.visited, RelaxedAt g s' u') ∨ goal ∈ s'.visited) :=
  dloop_spec hw (fuelBound g) (dinit start) (dinit_core g start)
    (by intro u hu; simp [dinit] at hu) (by simp [dinit])
    (phi_dinit_lt g start)

theorem sp_empty {g : Graph} {start goal : ℤ} {s' : DState}
    (hcore : DCore g start s') (hheap : s'.heap = [])
    (hgnv : goal ∉ s'.visited)
    (hrun : dloop g goal (fuelBound g) (dinit start) = some s') :
    goal ≠ start ∧ _shortest_path g start goal = [] := by
  have hstart : start ∈ s'.visited := by
    by_contra hns
    have := hcore.unvisHeap start 0 hns hcore.distStart
    rw [hheap] at this
    simp at this
  have hgs : goal ≠ start := by
    intro h
    rw [h] at hgnv
    exact hgnv hstart
  have hdg : s'.dist goal = none := by
    rcases h : s'.dist goal with _ | dz
    · rfl
    · have := hcore.unvisHeap goal dz hgnv h
      rw [hheap] at this
      simp at this
  have hpg : s'.prev goal = none := by
    have hns : ¬ (s'.prev goal).isSome := by
      intro hp
      have := (hcore.domIff goal).2 hp
      rw [hdg] at this
      simp at this
    exact Option.not_isSome_iff_eq_none.1 hns
  refine ⟨hgs, ?_⟩
  simp only [_shortest_path, hrun]
  rw [if_pos ⟨hpg, hgs⟩]

theorem sp_found {g : Graph} {start goal : ℤ} {s' : DState}
    (hcore : DCore g start s') (hgv : goal ∈ s'.visited)
    (hrun : dloop g goal (fuelBound g) (dinit start) = some s') :
    ∃ l dgoal, Chain s'.prev goal l ∧ l.Nodup ∧ l.getLast? = some start ∧
      s'.dist goal = some dgoal ∧
      _shortest_path g start goal = l.reverse := by
  have hds := hcore.visSome goal hgv
  obtain ⟨dgoal, hdg⟩ := Option.isSome_iff_exists.1 hds
  have hps : (s'.prev goal).isSome := (hcore.domIff goal).1 hds
  obtain ⟨l, hchain, hnd, hlast, htail⟩ := hcore.chains goal hps
  have hlen : l.length ≤ s'.visited.card + 1 :=
    tail_length_le hnd (fun x hx => htail x hx)
  have hcf : chainFuel s'.prev (s'.visited.card + 1) goal = l :=
    chainFuel_eq_chain hchain _ (by omega)
  refine ⟨l, dgoal, hchain, hnd, hlast, hdg, ?_⟩
  have hpneq : ¬(s'.prev goal = none ∧ goal ≠ start) := by
    intro hcon
    rw [hcon.1] at hps
    simp at hps
  simp only [_shortest_path, hrun]
  rw [if_neg hpneq]
  simp only [hcf]
  rw [if_pos hlast]

end RailNav

/-! ## Path shape: walks, weighted paths and chains -/

namespace RailNav

theorem weightedPath_snoc {g : Graph} {u v : ℤ} {w : ℚ} :
    ∀ {m : List ℤ} {c : ℚ}, WeightedPath g m c → m.getLast? = some u →
      (v, w) ∈ adjOf g u → WeightedPath g (m ++ [v]) (c + w) := by
  intro m c hwp
  induction hwp with
  | single u0 =>
    intro hlast hadj
    have hu : u0 = u := by simpa using hlast
    subst hu
    simpa using WeightedPath.cons hadj (WeightedPath.single v)
  | cons hadj' hrest ih =>
    rename_i a b rest w' c'
    intro hlast hadj
    have hlast' : (b :: rest).getLast? = some u := by
      rw [List.getLast?_cons_cons] at hlast
      exact hlast
    have hstep := WeightedPath.cons hadj' (ih hlast' hadj)
    rw [List.cons_append]
    rw [add_assoc]
    exact hstep

theorem weightedPath_chain {g : Graph} :
    ∀ {l : List ℤ} {c : ℚ}, WeightedPath g l c →
      List.Chain' (fun a b => ∃ w0, (b, w0) ∈ adjOf g a) l := by
  intro l c h
  induction h with
  | single u => simp
  | cons hadj hrest ih => exact List.chain'_cons.2 ⟨⟨_, hadj⟩, ih⟩

theorem costed_cast {g : Graph} {s z : ℤ} {c c' : ℚ} (h : CostedWalk g s z c)
    (he : c = c') : CostedWalk g s z c' := he ▸ h

theorem costed_trans {g : Graph} {a b z : ℤ} {c2 : ℚ}
    (h2 : CostedWalk g b z c2) :
    ∀ {c1 : ℚ}, CostedWalk g a b c1 → CostedWalk g a z (c2 + c1) := by
  induction h2 with
  | refl =>
    intro c1 h1
    exact costed_cast h1 (by ring)
  | step h2' hedge ih =>
    intro c1 h1
    exact costed_cast (CostedWalk.step (ih h1) hedge) (by ring)

theorem weightedPath_costed {g : Graph} :
    ∀ {l : List ℤ} {c : ℚ}, WeightedPath g l c → ∀ {a z : ℤ},
      l.head? = some a → l.getLast? = some z → CostedWalk g a z c
  | _, _, WeightedPath.single u, a, z, hh, hl => by
    have ha : u = a := by simpa using hh
    have hz : u = z := by simpa using hl
    subst ha
    subst hz
    exact CostedWalk.refl u
  | _, _, WeightedPath.cons hadj hrest, a, z, hh, hl => by
    rename_i a0 b rest w c'
    have ha : a0 = a := by simpa using hh
    subst ha
    have hl' : (b :: rest).getLast? = some z := by
      rw [List.getLast?_cons_cons] at hl
      exact hl
    have hbz := weightedPath_costed hrest (a := b) (z := z) rfl hl'
    exact costed_cast
      (costed_trans hbz (CostedWalk.step (CostedWalk.refl a0) hadj)) (by ring)

theorem costed_reach {g : Graph} {s z : ℤ} {c : ℚ}
    (h : CostedWalk g s z c) : Reach g s z := by
  induction h with
  | refl => exact Relation.ReflTransGen.refl
  | step h' hedge ih => exact Relation.ReflTransGen.tail ih ⟨_, hedge⟩

theorem reach_visited {g : Graph} {start : ℤ} {s : DState}
    (hcore : DCore g start s) (hrel : ∀ u ∈ s.visited, RelaxedAt g s u)
    (hheap : s.heap = []) : ∀ z, Reach g start z → z ∈ s.visited := by
  have hstart : start ∈ s.visited := by
    by_contra hns
    have := hcore.unvisHeap start 0 hns hcore.distStart
    rw [hheap] at this
    simp at this
  intro z hz
  induction hz with
  | refl => exact hstart
  | tail hr hedge ih =>
    rename_i mid z0
    obtain ⟨w, hadj⟩ := hedge
    obtain ⟨du, dz, hdu, hdz, _⟩ := hrel mid ih (z0, w) hadj
    by_contra hnz
    have := hcore.unvisHeap z0 dz hnz hdz
    rw [hheap] at this
    simp at this

theorem getLast?_mem_list {α : Type} : ∀ {l : List α} {a : α},
    l.getLast? = some a → a ∈ l
  | [], a, h => by simp at h
  | [b], a, h => by
    simp only [List.getLast?_singleton, Option.some.injEq] at h
    simp [h]
  | b :: c :: t, a, h => by
    rw [List.getLast?_cons_cons] at h
    exact List.mem_cons_of_mem _ (getLast?_mem_list h)

theorem chain_dist {g : Graph} {start : ℤ} {s : DState}
    (hcore : DCore g start s) :
    ∀ {v : ℤ} {l : List ℤ}, Chain s.prev v l → ∀ {dv : ℚ},
      s.dist v = some dv → WeightedPath g l.reverse dv := by
  intro v l hc
  induction hc with
  | base h =>
    rename_i v0
    intro dv hdv
    have hv0 : v0 = start := hcore.prevNone v0 h
    rw [hv0, hcore.distStart] at hdv
    have h0 : (0 : ℚ) = dv := Option.some.injEq .. ▸ hdv
    rw [← h0]
    simpa using WeightedPath.single v0
  | cons h hc ih =>
    rename_i v1 u1 l1
    intro dv hdv
    obtain ⟨hu1vis, w, du, dv', hadj, hdu, hdv', heq⟩ := hcore.prevEdge v1 u1 h
    rw [hdv] at hdv'
    have hdve : dv = dv' := Option.some.injEq .. ▸ hdv'
    have hWP := ih hdu
    have hlast : l1.reverse.getLast? = some u1 := by
      obtain ⟨t, rfl⟩ := chain_head hc
      simp [List.getLast?_reverse]
    have hsnoc := weightedPath_snoc hWP hlast hadj
    rw [List.reverse_cons, hdve, heq]
    exact hsnoc

end RailNav

/-! ## Claims C2 and C3 -/

namespace RailNav

/-- **C2.** On any graph with non-negative stored weights (as all haversine
weights are), `_shortest_path g s s = [s]`; and for `s ≠ t` the search
returns `[]` exactly when `t` is unreachable from `s` along stored
adjacency records — no connectivity assumption on the graph. -/
theorem C2_self_single_and_empty_iff_unreachable (g : Graph) (s t : ℤ)
    (hw : NonnegWeights g) :
    _shortest_path g s s = [s] ∧
    (s ≠ t → (_shortest_path g s t = [] ↔ ¬ Reach g s t)) := by
  constructor
  · obtain ⟨s', hrun, hcore, hrel, hexit⟩ := sp_run s s (nonneg_adjOf hw)
    rcases hexit with ⟨hheap, hgnv, _⟩ | hgv
    · exact absurd (sp_empty hcore hheap hgnv hrun).1 (by simp)
    · obtain ⟨l, dg, hchain, hnd, hlast, hdg, hres⟩ := sp_found hcore hgv hrun
      obtain ⟨tl, rfl⟩ := chain_head hchain
      have htl : tl = [] := by
        cases tl with
        | nil => rfl
        | cons b tl2 =>
          rw [List.getLast?_cons_cons] at hlast
          have hmem : s ∈ b :: tl2 := getLast?_mem_list hlast
          rw [List.nodup_cons] at hnd
          exact absurd hmem hnd.1
      subst htl
      simpa using hres
  · intro hst
    obtain ⟨s', hrun, hcore, hrel, hexit⟩ := sp_run s t (nonneg_adjOf hw)
    rcases hexit with ⟨hheap, hgnv, hrelAll⟩ | hgv
    · obtain ⟨-, hres⟩ := sp_empty hcore hheap hgnv hrun
      rw [hres]
      constructor
      · intro _ hreach
        exact hgnv (reach_visited hcore hrelAll hheap t hreach)
      · intro _
        rfl
    · obtain ⟨l, dg, hchain, hnd, hlast, hdg, hres⟩ := sp_found hcore hgv hrun
      rw [hres]
      obtain ⟨tl, rfl⟩ := chain_head hchain
      constructor
      · intro hc
        simp at hc
      · intro hnr
        exfalso
        have hWP := chain_dist hcore hchain hdg
        have hhead : (t :: tl).reverse.head? = some s := by
          rw [List.head?_reverse]
          exact hlast
        have hlast2 : (t :: tl).reverse.getLast? = some t := by
          rw [List.getLast?_reverse]
          rfl
        exact hnr (costed_reach (weightedPath_costed hWP hhead hlast2))

theorem C2_witness :
    NonnegWeights sampleGraph ∧
    (_shortest_path sampleGraph 1 1 = [1] ∧
      ((1 : ℤ) ≠ 4 →
        (_shortest_path sampleGraph 1 4 = [] ↔ ¬ Reach sampleGraph 1 4))) :=
  ⟨by decide, C2_self_single_and_empty_iff_unreachable sampleGraph 1 4 (by decide)⟩

/-- **C3.** Every non-empty list returned by `_shortest_path` (on a graph
with non-negative stored weights) starts at `start`, ends at `goal`, has
no repeated node, and every consecutive pair follows a stored adjacency
record of the graph used for the search. -/
theorem C3_result_is_simple_edge_path (g : Graph) (start goal : ℤ)
    (l : List ℤ) (hw : NonnegWeights g)
    (hres : _shortest_path g start goal = l) (hne : l ≠ []) :
    l.head? = some start ∧ l.getLast? = some goal ∧ l.Nodup ∧
    List.Chain' (fun a b => ∃ w0, (b, w0) ∈ adjOf g a) l := by
  obtain ⟨s', hrun, hcore, hrel, hexit⟩ := sp_run start goal (nonneg_adjOf hw)
  rcases hexit with ⟨hheap, hgnv, _⟩ | hgv
  · obtain ⟨-, hres2⟩ := sp_empty hcore hheap hgnv hrun
    rw [hres] at hres2
    exact absurd hres2 hne
  · obtain ⟨l0, dg, hchain, hnd, hlast, hdg, hres2⟩ := sp_found hcore hgv hrun
    rw [hres] at hres2
    subst hres2
    obtain ⟨tl, rfl⟩ := chain_head hchain
    refine ⟨?_, ?_, ?_, ?_⟩
    · rw [List.head?_reverse]
      exact hlast
    · rw [List.getLast?_reverse]
      rfl
    · exact List.nodup_reverse.2 hnd
    · exact weightedPath_chain (chain_dist hcore hchain hdg)

set_option maxHeartbeats 2000000 in
theorem C3_witness :
    NonnegWeights sampleGraph ∧
    (([1, 2, 3] : List ℤ).head? = some 1 ∧
      ([1, 2, 3] : List ℤ).getLast? = some 3 ∧
      ([1, 2, 3] : List ℤ).Nodup ∧
      List.Chain' (fun a b => ∃ w0, (b, w0) ∈ adjOf sampleGraph a) [1, 2, 3]) :=
  ⟨by decide, C3_result_is_simple_edge_path sampleGraph 1 3 [1, 2, 3] (by decide)
    (by
      norm_num [_shortest_path, sampleGraph, dloop, dinit, fuelBound, popMin,
        minEntry, heapLe, relaxAll, relaxOne, relaxUpd, improves, adjOf,
        alookup, chainFuel]
      intro h
      exact absurd h (by simp))
    (by simp)⟩

end RailNav

/-! ## Hybrid graph: adjacency inclusion and weight provenance -/

namespace RailNav

theorem mem_adjOf_addEdge_of_mem {g : Graph} {u v : ℤ} {w : ℚ} {x : ℤ}
    {e : ℤ × ℚ} (h : e ∈ adjOf g x) : e ∈ adjOf (addEdge g u v w) x :=
  mem_adjOf_addEdge.2 (Or.inl h)

theorem hybridRoadPairs_mono {hv : ℚ → ℚ → ℚ → ℚ → ℚ} {N : NodeTable}
    {rw0 : ℚ} :
    ∀ (ps : List (ℤ × ℤ)) (g : Graph) (m : EMap) (x : ℤ) (e : ℤ × ℚ),
      e ∈ adjOf g x → e ∈ adjOf (hybridRoadPairs hv N rw0 (g, m) ps).1 x
  | [], g, m, x, e, h => h
  | (u, v) :: rest, g, m, x, e, h => by
    rcases hu : alookup N u with _ | cu <;> rcases hvv : alookup N v with _ | cv <;>
      simp only [hybridRoadPairs, hu, hvv]
    · exact hybridRoadPairs_mono rest g m x e h
    · exact hybridRoadPairs_mono rest g m x e h
    · exact hybridRoadPairs_mono rest g m x e h
    · exact hybridRoadPairs_mono rest _ _ x e (mem_adjOf_addEdge_of_mem h)

theorem roadFold_mono {hv : ℚ → ℚ → ℚ → ℚ → ℚ} {N : NodeTable} {rw0 : ℚ} :
    ∀ (ways : List Way) (s : Graph × EMap) (x : ℤ) (e : ℤ × ℚ),
      e ∈ adjOf s.1 x →
      e ∈ adjOf ((ways.foldl
        (fun s w => hybridRoadPairs hv N rw0 s (pairsOf w.nodes)) s)).1 x
  | [], s, x, e, h => by simpa using h
  | w :: rest, (g, m), x, e, h => by
    rw [List.foldl_cons]
    exact roadFold_mono rest _ x e (hybridRoadPairs_mono _ g m x e h)

theorem hybridPed_graph_eq {hv : ℚ → ℚ → ℚ → ℚ → ℚ} {N : NodeTable}
    {cat : String} :
    ∀ (ps : List (ℤ × ℤ)) (g : Graph) (m : EMap) (g' : Graph) (m' : EMap),
      buildPairs hv N cat (g, m) ps = .ok (g', m') →
      ∀ m2 : EMap, (hybridPedPairs hv N 1 cat (g, m2) ps).1 = g'
  | [], g, m, g', m', h, m2 => by
    simp [buildPairs] at h
    simp [hybridPedPairs, h.1]
  | (u, v) :: rest, g, m, g', m', h, m2 => by
    rcases hu : alookup N u with _ | cu <;> rcases hvv : alookup N v with _ | cv <;>
      simp [buildPairs, hu, hvv] at h
    have hnext := hybridPed_graph_eq rest _ _ g' m' h
    simp only [hybridPedPairs, hu, hvv]
    rw [mul_one]
    exact hnext _

theorem pedFold_graph_eq {hv : ℚ → ℚ → ℚ → ℚ → ℚ} {N : NodeTable} :
    ∀ (ways : List Way) (g : Graph) (m : EMap) (g' : Graph) (m' : EMap),
      buildWays hv N (g, m) ways = .ok (g', m') →
      ∀ m2 : EMap,
        ((ways.foldl
          (fun s w => hybridPedPairs hv N 1 (wayCategory w) s (pairsOf w.nodes))
          (g, m2))).1 = g'
  | [], g, m, g', m', h, m2 => by
    simp [buildWays] at h
    simp [h.1]
  | w :: rest, g, m, g', m', h, m2 => by
    rcases hs : buildPairs hv N (wayCategory w) (g, m) (pairsOf w.nodes) with e | ⟨g1, m1⟩
    · simp [buildWays, hs] at h
    · rw [buildWays, hs] at h
      rw [List.foldl_cons]
      rcases hpair : hybridPedPairs hv N 1 (wayCategory w) (g, m2)
          (pairsOf w.nodes) with ⟨gh, mh⟩
      have hfst : gh = g1 := by
        have h2 := hybridPed_graph_eq _ g m g1 m1 hs m2
        rw [hpair] at h2
        exact h2
      rw [hfst]
      exact pedFold_graph_eq rest g1 m1 g' m' h mh

theorem hybProv_nil (hv : ℚ → ℚ → ℚ → ℚ → ℚ) (N : NodeTable) (pw rw0 : ℚ) :
    HybProv hv N pw rw0 [] := by
  intro u v w h
  simp [adjOf, alookup] at h

theorem hybProv_addEdge {hv : ℚ → ℚ → ℚ → ℚ → ℚ} {N : NodeTable}
    {pw rw0 : ℚ} {g : Graph} {u v : ℤ} {cu cv : Coord} {k : ℚ}
    (hsym : ∀ a b c d, hv a b c d = hv c d a b)
    (hg : HybProv hv N pw rw0 g)
    (hcu : alookup N u = some cu) (hcv : alookup N v = some cv)
    (hk : k = pw ∨ k = rw0) :
    HybProv hv N pw rw0 (addEdge g u v (hv cu.1 cu.2 cv.1 cv.2 * k)) := by
  intro a b w hmem
  rcases mem_adjOf_addEdge.1 hmem with h0 | ⟨hau, hbw⟩ | ⟨hav, hbw⟩
  · exact hg a b w h0
  · rcases Prod.mk.injEq .. ▸ hbw with ⟨hbv, hww⟩
    refine ⟨cu, cv, by rw [hau]; exact hcu, by rw [hbv]; exact hcv, ?_⟩
    rcases hk with rfl | rfl
    · exact Or.inl hww
    · exact Or.inr hww
  · rcases Prod.mk.injEq .. ▸ hbw with ⟨hbu, hww⟩
    refine ⟨cv, cu, by rw [hav]; exact hcv, by rw [hbu]; exact hcu, ?_⟩
    rw [hsym cv.1 cv.2 cu.1 cu.2]
    rcases hk with rfl | rfl
    · exact Or.inl hww
    · exact Or.inr hww

theorem hybridPedPairs_prov {hv : ℚ → ℚ → ℚ → ℚ → ℚ} {N : NodeTable}
    {pw rw0 : ℚ}
    (hsym : ∀ a b c d, hv a b c d = hv c d a b) :
    ∀ (cat : String) (ps : List (ℤ × ℤ)) (g : Graph) (m : EMap),
      HybProv hv N pw rw0 g →
      HybProv hv N pw rw0 (hybridPedPairs hv N pw cat (g, m) ps).1
  | _, [], g, m, hg => hg
  | cat, (u, v) :: rest, g, m, hg => by
    rcases hu : alookup N u with _ | cu <;> rcases hvv : alookup N v with _ | cv <;>
      simp only [hybridPedPairs, hu, hvv]
    · exact hybridPedPairs_prov hsym cat rest g m hg
    · exact hybridPedPairs_prov hsym cat rest g m hg
    · exact hybridPedPairs_prov hsym cat rest g m hg
    · exact hybridPedPairs_prov hsym cat rest _ _
        (hybProv_addEdge hsym hg hu hvv (Or.inl rfl))

theorem pedFold_prov {hv : ℚ → ℚ → ℚ → ℚ → ℚ} {N : NodeTable} {pw rw0 : ℚ}
    (hsym : ∀ a b c d, hv a b c d = hv c d a b) :
    ∀ (ways : List Way) (s : Graph × EMap), HybProv hv N pw rw0 s.1 →
      HybProv hv N pw rw0 ((ways.foldl
        (fun s w => hybridPedPairs hv N pw (wayCategory w) s (pairsOf w.nodes))
        s)).1
  | [], s, hg => by simpa using hg
  | w :: rest, (g, m), hg => by
    rw [List.foldl_cons]
    rcases hpair : hybridPedPairs hv N pw (wayCategory w) (g, m)
        (pairsOf w.nodes) with ⟨gh, mh⟩
    have hstep := hybridPedPairs_prov hsym (wayCategory w) (pairsOf w.nodes) g m hg
    rw [hpair] at hstep
    exact pedFold_prov hsym rest (gh, mh) hstep

theorem hybridRoadPairs_prov {hv : ℚ → ℚ → ℚ → ℚ → ℚ} {N : NodeTable}
    {pw rw0 : ℚ}
    (hsym : ∀ a b c d, hv a b c d = hv c d a b) :
    ∀ (ps : List (ℤ × ℤ)) (g : Graph) (m : EMap), HybProv hv N pw rw0 g →
      HybProv hv N pw rw0 (hybridRoadPairs hv N rw0 (g, m) ps).1
  | [], g, m, hg => hg
  | (u, v) :: rest, g, m, hg => by
    rcases hu : alookup N u with _ | cu <;> rcases hvv : alookup N v with _ | cv <;>
      simp only [hybridRoadPairs, hu, hvv]
    · exact hybridRoadPairs_prov hsym rest g m hg
    · exact hybridRoadPairs_prov hsym rest g m hg
    · exact hybridRoadPairs_prov hsym rest g m hg
    · exact hybridRoadPairs_prov hsym rest _ _
        (hybProv_addEdge hsym hg hu hvv (Or.inr rfl))

theorem roadFold_prov {hv : ℚ → ℚ → ℚ → ℚ → ℚ} {N : NodeTable} {pw rw0 : ℚ}
    (hsym : ∀ a b c d, hv a b c d = hv c d a b) :
    ∀ (ways : List Way) (s : Graph × EMap), HybProv hv N pw rw0 s.1 →
      HybProv hv N pw rw0 ((ways.foldl
        (fun s w => hybridRoadPairs hv N rw0 s (pairsOf w.nodes)) s)).1
  | [], s, hg => by simpa using hg
  | w :: rest, (g, m), hg => by
    rw [List.foldl_cons]
    rcases hpair : hybridRoadPairs hv N rw0 (g, m) (pairsOf w.nodes) with ⟨gh, mh⟩
    have hstep := hybridRoadPairs_prov hsym (pairsOf w.nodes) g m hg
    rw [hpair] at hstep
    exact roadFold_prov hsym rest (gh, mh) hstep

theorem symProv_nonneg {hv : ℚ → ℚ → ℚ → ℚ → ℚ} {N : NodeTable} {g : Graph}
    (hg : SymProv hv N g) (hnn : ∀ a b c d, 0 ≤ hv a b c d) :
    ∀ u : ℤ, ∀ e ∈ adjOf g u, 0 ≤ e.2 := by
  intro u e he
  obtain ⟨cu, cv, _, _, hw⟩ := (hg u e.1 e.2).2 he
  rw [hw]
  exact hnn _ _ _ _

theorem hybProv_nonneg {hv : ℚ → ℚ → ℚ → ℚ → ℚ} {N : NodeTable}
    {pw rw0 : ℚ} {g : Graph} (hg : HybProv hv N pw rw0 g)
    (hnn : ∀ a b c d, 0 ≤ hv a b c d) (hpw : 0 ≤ pw) (hrw : 0 ≤ rw0) :
    ∀ u : ℤ, ∀ e ∈ adjOf g u, 0 ≤ e.2 := by
  intro u e he
  obtain ⟨cu, cv, _, _, hw⟩ := hg u e.1 e.2 he
  rcases hw with hw | hw <;> rw [hw]
  · exact mul_nonneg (hnn _ _ _ _) hpw
  · exact mul_nonneg (hnn _ _ _ _) hrw

theorem costed_mono {g1 g2 : Graph}
    (hsub : ∀ (u : ℤ) (e : ℤ × ℚ), e ∈ adjOf g1 u → e ∈ adjOf g2 u) :
    ∀ {s z : ℤ} {c : ℚ}, CostedWalk g1 s z c → CostedWalk g2 s z c := by
  intro s z c h
  induction h with
  | refl => exact CostedWalk.refl _
  | step h' hedge ih => exact CostedWalk.step ih (hsub _ _ hedge)

theorem polyline_cons (hv : ℚ → ℚ → ℚ → ℚ → ℚ) (x y : Coord) (t : List Coord) :
    _polyline_length hv (x :: y :: t) =
      hv x.1 x.2 y.1 y.2 + _polyline_length hv (y :: t) := by
  simp [_polyline_length]

theorem ground_le_cost {hv : ℚ → ℚ → ℚ → ℚ → ℚ} {N : NodeTable}
    {pw rw0 : ℚ} {g : Graph} (hprov : HybProv hv N pw rw0 g)
    (hnn : ∀ a b c d, 0 ≤ hv a b c d) (hpw : 1 ≤ pw) (hrw : 1 ≤ rw0) :
    ∀ {l : List ℤ} {c : ℚ}, WeightedPath g l c →
      _polyline_length hv (routeCoords N l) ≤ c := by
  intro l c h
  induction h with
  | single u => simp [_polyline_length, routeCoords]
  | cons hadj hrest ih =>
    rename_i a b rest w c'
    obtain ⟨cu, cv, hcu, hcv, hw⟩ := hprov a b w hadj
    have hrc : routeCoords N (a :: b :: rest) =
        cu :: cv :: routeCoords N rest := by
      simp [routeCoords, hcu, hcv]
    have hrcb : routeCoords N (b :: rest) = cv :: routeCoords N rest := by
      simp [routeCoords, hcv]
    rw [hrc, polyline_cons]
    rw [hrcb] at ih
    have h0 := hnn cu.1 cu.2 cv.1 cv.2
    have hge : hv cu.1 cu.2 cv.1 cv.2 ≤ w := by
      rcases hw with rfl | rfl
      · nlinarith
      · nlinarith
    linarith

theorem ground_eq_cost {hv : ℚ → ℚ → ℚ → ℚ → ℚ} {N : NodeTable} {g : Graph}
    (hprov : ∀ u v w, (v, w) ∈ adjOf g u →
      ∃ cu cv, alookup N u = some cu ∧ alookup N v = some cv ∧
        w = hv cu.1 cu.2 cv.1 cv.2) :
    ∀ {l : List ℤ} {c : ℚ}, WeightedPath g l c →
      _polyline_length hv (routeCoords N l) = c := by
  intro l c h
  induction h with
  | single u => simp [_polyline_length, routeCoords]
  | cons hadj hrest ih =>
    rename_i a b rest w c'
    obtain ⟨cu, cv, hcu, hcv, hw⟩ := hprov a b w hadj
    have hrc : routeCoords N (a :: b :: rest) =
        cu :: cv :: routeCoords N rest := by
      simp [routeCoords, hcu, hcv]
    have hrcb : routeCoords N (b :: rest) = cv :: routeCoords N rest := by
      simp [routeCoords, hcv]
    rw [hrc, polyline_cons]
    rw [hrcb] at ih
    rw [ih, hw]

theorem hvSample_nonneg : ∀ a b c d, 0 ≤ hvSample a b c d := by
  intro a b c d
  simp only [hvSample]
  split_ifs <;> linarith

end RailNav

/-! ## Claim C6 -/

namespace RailNav

/-- **C6 (amended).**  The hybrid graph contains every pedestrian edge at
its unscaled weight (pedestrian multiplier 1.0) plus road edges, so its
search can only find routes of ground length *at most* that of the pure
pedestrian route: when both builds and both searches (between the same
endpoints) succeed, the polyline ground length of the hybrid route is
`≤` that of the pedestrian route.  (The spec's `≥` direction is false —
see the counterexample.) -/
theorem C6_hybrid_ground_length_le
    (hv : ℚ → ℚ → ℚ → ℚ → ℚ) (N : NodeTable) (pedWays roadWays : List Way)
    (gP gH : Graph) (mP mH : EMap) (s t : ℤ) (lP lH : List ℤ)
    (hsym : ∀ a b c d, hv a b c d = hv c d a b)
    (hnn : ∀ a b c d, 0 ≤ hv a b c d)
    (hokP : _build_graph hv N pedWays = .ok (gP, mP))
    (hokH : _build_hybrid_graph hv N pedWays roadWays 1 3 = (gH, mH))
    (hresP : _shortest_path gP s t = lP) (hneP : lP ≠ [])
    (hresH : _shortest_path gH s t = lH) (hneH : lH ≠ []) :
    _polyline_length hv (routeCoords N lH) ≤
      _polyline_length hv (routeCoords N lP) := by
  have hsymP : SymProv hv N gP :=
    buildWays_symProv hsym pedWays [] [] gP mP (symProv_nil hv N) hokP
  have hwP : ∀ u : ℤ, ∀ e ∈ adjOf gP u, 0 ≤ e.2 := symProv_nonneg hsymP hnn
  have hgh : (roadWays.foldl
      (fun s w => hybridRoadPairs hv N 3 s (pairsOf w.nodes))
      (pedWays.foldl
        (fun s w => hybridPedPairs hv N 1 (wayCategory w) s (pairsOf w.nodes))
        (([], []) : Graph × EMap))) = (gH, mH) := hokH
  have hprovH : HybProv hv N 1 3 gH := by
    have hped := pedFold_prov hsym pedWays (([], []) : Graph × EMap)
      (hybProv_nil hv N 1 3)
    have hroad := roadFold_prov hsym roadWays _ hped
    rw [hgh] at hroad
    exact hroad
  have hwH : ∀ u : ℤ, ∀ e ∈ adjOf gH u, 0 ≤ e.2 :=
    hybProv_nonneg hprovH hnn (by norm_num) (by norm_num)
  have hsub : ∀ (u : ℤ) (e : ℤ × ℚ), e ∈ adjOf gP u → e ∈ adjOf gH u := by
    intro u e he
    have hped : (pedWays.foldl
        (fun s w => hybridPedPairs hv N 1 (wayCategory w) s (pairsOf w.nodes))
        (([], []) : Graph × EMap)).1 = gP :=
      pedFold_graph_eq pedWays [] [] gP mP hokP []
    rcases hpair : pedWays.foldl
        (fun s w => hybridPedPairs hv N 1 (wayCategory w) s (pairsOf w.nodes))
        (([], []) : Graph × EMap) with ⟨g1, m1⟩
    rw [hpair] at hped hgh
    simp only at hped
    have hmem1 : e ∈ adjOf g1 u := by
      rw [hped]
      exact he
    have hmem2 : e ∈ adjOf ((roadWays.foldl
        (fun s w => hybridRoadPairs hv N 3 s (pairsOf w.nodes)) (g1, m1))).1 u :=
      roadFold_mono roadWays (g1, m1) u e hmem1
    rw [hgh] at hmem2
    exact hmem2
  obtain ⟨sP, hrunP, hcoreP, _, hexitP⟩ := sp_run s t hwP
  obtain ⟨sH, hrunH, hcoreH, _, hexitH⟩ := sp_run s t hwH
  rcases hexitP with ⟨hheapP, hgnvP, _⟩ | hgvP
  · obtain ⟨-, hresP2⟩ := sp_empty hcoreP hheapP hgnvP hrunP
    rw [hresP] at hresP2
    exact absurd hresP2 hneP
  rcases hexitH with ⟨hheapH, hgnvH, _⟩ | hgvH
  · obtain ⟨-, hresH2⟩ := sp_empty hcoreH hheapH hgnvH hrunH
    rw [hresH] at hresH2
    exact absurd hresH2 hneH
  obtain ⟨l0P, dgP, hchainP, hndP, hlastP, hdgP, hresP2⟩ :=
    sp_found hcoreP hgvP hrunP
  obtain ⟨l0H, dgH, hchainH, hndH, hlastH, hdgH, hresH2⟩ :=
    sp_found hcoreH hgvH hrunH
  rw [hresP] at hresP2
  rw [hresH] at hresH2
  subst hresP2
  subst hresH2
  have hWPP := chain_dist hcoreP hchainP hdgP
  have hWPH := chain_dist hcoreH hchainH hdgH
  have hheadP : l0P.reverse.head? = some s := by
    rw [List.head?_reverse]
    exact hlastP
  obtain ⟨tlP, rfl⟩ := chain_head hchainP
  have hlast2P : (t :: tlP).reverse.getLast? = some t := by
    rw [List.getLast?_reverse]
    rfl
  have hcostP := weightedPath_costed hWPP hheadP hlast2P
  have hcostH := costed_mono hsub hcostP
  have hlb := hcoreH.lb t hgvH dgH hdgH dgP hcostH
  have hgle := ground_le_cost hprovH hnn (by norm_num) (by norm_num) hWPH
  have hgeq := ground_eq_cost (fun u v w h => (hsymP u v w).2 h) hWPP
  rw [hgeq]
  linarith

end RailNav

namespace RailNav

set_option maxHeartbeats 2000000 in
/-- **C6 counterexample.**  Both searches succeed between nodes 1 and 2,
but the hybrid route takes the road shortcut: its ground length (6) is
*smaller* than the pedestrian route's (86), refuting the claimed `≥`
relation between hybrid and pedestrian search distances. -/
theorem C6_counterexample :
    _build_graph hvSample cNodes cPedWays = .ok (cGP, cMP) ∧
    _build_hybrid_graph hvSample cNodes cPedWays cRoadWays 1 3 = (cGH, cMH) ∧
    _shortest_path cGP 1 2 = [1, 3, 2] ∧
    _shortest_path cGH 1 2 = [1, 2] ∧
    ¬ (_polyline_length hvSample (routeCoords cNodes [1, 2]) ≥
        _polyline_length hvSample (routeCoords cNodes [1, 3, 2])) := by
  refine ⟨?_, ?_, ?_, ?_, ?_⟩
  · norm_num [_build_graph, buildWays, buildPairs, pairsOf, wayCategory,
      addEdge, appendAdj, emapSet, ekey, type_rank, alookup, hvSample,
      cNodes, cPedWays, cGP, cMP]
  · norm_num [_build_hybrid_graph, hybridPedPairs, hybridRoadPairs, pairsOf,
      wayCategory, addEdge, appendAdj, emapSet, ekey, alookup, hvSample,
      cNodes, cPedWays, cRoadWays, cGH, cMH]
  · norm_num [_shortest_path, cGP, dloop, dinit, fuelBound, popMin, minEntry,
      heapLe, relaxAll, relaxOne, relaxUpd, improves, adjOf, alookup, chainFuel]
    intro h
    exact absurd h (by simp)
  · norm_num [_shortest_path, cGH, dloop, dinit, fuelBound, popMin, minEntry,
      heapLe, relaxAll, relaxOne, relaxUpd, improves, adjOf, alookup, chainFuel]
    intro h
    exact absurd h (by simp)
  · norm_num [_polyline_length, routeCoords, cNodes, alookup, hvSample]

set_option maxHeartbeats 2000000 in
theorem C6_witness :
    (∀ a b c d, hvSample a b c d = hvSample c d a b) ∧
    (∀ a b c d, 0 ≤ hvSample a b c d) ∧
    _polyline_length hvSample (routeCoords cNodes [1, 2]) ≤
      _polyline_length hvSample (routeCoords cNodes [1, 3, 2]) :=
  ⟨hvSample_symm, hvSample_nonneg,
    C6_hybrid_ground_length_le hvSample cNodes cPedWays cRoadWays cGP cGH cMP cMH
      1 2 [1, 3, 2] [1, 2] hvSample_symm hvSample_nonneg
      (by
        norm_num [_build_graph, buildWays, buildPairs, pairsOf, wayCategory,
          addEdge, appendAdj, emapSet, ekey, type_rank, alookup, hvSample,
          cNodes, cPedWays, cGP, cMP])
      (by
        norm_num [_build_hybrid_graph, hybridPedPairs, hybridRoadPairs, pairsOf,
          wayCategory, addEdge, appendAdj, emapSet, ekey, alookup, hvSample,
          cNodes, cPedWays, cRoadWays, cGH, cMH])
      (by
        norm_num [_shortest_path, cGP, dloop, dinit, fuelBound, popMin, minEntry,
          heapLe, relaxAll, relaxOne, relaxUpd, improves, adjOf, alookup, chainFuel]
        intro h
        exact absurd h (by simp))
      (by simp)
      (by
        norm_num [_shortest_path, cGH, dloop, dinit, fuelBound, popMin, minEntry,
          heapLe, relaxAll, relaxOne, relaxUpd, improves, adjOf, alookup, chainFuel]
        intro h
        exact absurd h (by simp))
      (by simp)⟩

end RailNav
